import Mathlib

/-!
Shallow embedding of the scope-aware context-selection engine of
`grep_ast.py` (class `TreeContext`): the line/scope indexer built by
`walk_tree` plus header finalization, and the context expander
(`add_context` with its helpers `add_parent_scopes`, `add_child_context`,
`close_small_gaps`) and the renderer `format`.

Modelling conventions:
* Python lists are Lean `List`s; Python list indexing (with its negative-index
  wrap-around and `IndexError`) is `pyGet`.
* Python `set`s of line numbers are `Finset ℤ`; where Python iterates over a
  set in unspecified hash order, the model iterates in ascending order.
* Any Python expression that can raise (`IndexError`, `max` of an empty
  sequence) is modelled in the `Option` monad; `none` is an exception.
* The unbounded recursion of `add_parent_scopes` is modelled with a fuel
  parameter; each top-level call receives fuel `num_lines + 2`, which is
  proved sufficient for well-formed tables.
-/

namespace GrepAst

/-- Python list indexing: `xs[i]` reads from the front for `0 ≤ i`,
wraps from the back for `-len ≤ i < 0`, and raises (`none`) otherwise. -/
def pyGet {α : Type} (xs : List α) (i : ℤ) : Option α :=
  if 0 ≤ i then xs.get? i.toNat
  else if -(xs.length : ℤ) ≤ i then xs.get? ((xs.length : ℤ) + i).toNat
  else none

/-- In-place update of a Python list cell (`xs[i] = f xs[i]`, used for
`append`/`add` on the per-line tables); `none` when the index is out of range. -/
def setAt {α : Type} (xs : List α) (i : Nat) (f : α → α) : Option (List α) :=
  match xs.get? i with
  | none => none
  | some a => some (xs.set i (f a))

/-- A tree-sitter syntax node: `start_point[0]`, `end_point[0]` and children.
Columns and node types are irrelevant to the core algorithm. -/
inductive TSNode : Type where
  | mk (startLine endLine : Nat) (children : List TSNode)

def TSNode.startLine : TSNode → Nat
  | .mk s _ _ => s

def TSNode.endLine : TSNode → Nat
  | .mk _ e _ => e

def TSNode.children : TSNode → List TSNode
  | .mk _ _ cs => cs

mutual

/-- `find_all_children`: the node itself followed by all descendants, pre-order. -/
def find_all_children (n : TSNode) : List TSNode :=
  match n with
  | .mk s e cs => TSNode.mk s e cs :: findAllList cs

def findAllList (ns : List TSNode) : List TSNode :=
  match ns with
  | [] => []
  | c :: rest => find_all_children c ++ findAllList rest

end

mutual

/-- The tree-sitter contract assumed by the spec: every node satisfies
`start_line ≤ end_line`. -/
def TSNode.wfB (n : TSNode) : Bool :=
  match n with
  | .mk s e cs => decide (s ≤ e) && wfListB cs

def wfListB (ns : List TSNode) : Bool :=
  match ns with
  | [] => true
  | c :: rest => c.wfB && wfListB rest

end

/-- The three per-line tables built by `walk_tree`: `self.scopes` (sets of
scope-start lines, modelled as duplicate-free lists), `self.header` before
finalization (lists of `(size, start_line, end_line)` candidates) and
`self.nodes`. -/
structure WalkTables where
  scopes : List (List Nat)
  headerCands : List (List (ℤ × Nat × Nat))
  nodes : List (List TSNode)

/-- `set.add` on a scope entry: append if absent. -/
def addScopeAt (l : List Nat) (s : Nat) : List Nat :=
  if s ∈ l then l else l ++ [s]

/-- `for i in range(start_line, end_line + 1): self.scopes[i].add(start_line)`. -/
def scopesLoop (scopes : List (List Nat)) (s : Nat) : List Nat → Option (List (List Nat))
  | [] => some scopes
  | i :: rest =>
    match setAt scopes i (fun l => addScopeAt l s) with
    | none => none
    | some sc => scopesLoop sc s rest

mutual

/-- `TreeContext.walk_tree`: record the node at its start line, record a
header candidate when the node is multi-line, mark the scope on every covered
line, then recurse into the children. -/
def walk_tree (t : WalkTables) (n : TSNode) : Option WalkTables :=
  match n with
  | .mk s e cs =>
    match setAt t.nodes s (fun l => l ++ [TSNode.mk s e cs]) with
    | none => none
    | some nodesT =>
      match (if ((e : ℤ) - (s : ℤ)) ≠ 0 then
          setAt t.headerCands s (fun l => l ++ [((e : ℤ) - (s : ℤ), s, e)])
        else some t.headerCands) with
      | none => none
      | some candsT =>
        match scopesLoop t.scopes s (List.range' s (e + 1 - s)) with
        | none => none
        | some scopesT => walkList ⟨scopesT, candsT, nodesT⟩ cs

def walkList (t : WalkTables) (ns : List TSNode) : Option WalkTables :=
  match ns with
  | [] => some t
  | c :: rest =>
    match walk_tree t c with
    | none => none
    | some t' => walkList t' rest

end

/-- Lexicographic `≤` on `(size, head_start, head_end)` candidate triples,
matching Python tuple comparison in `sorted`. -/
def tripLe (a b : ℤ × Nat × Nat) : Bool :=
  a.1 < b.1 || (a.1 = b.1 && (a.2.1 < b.2.1 || (a.2.1 = b.2.1 && a.2.2 ≤ b.2.2)))

def insTrip (x : ℤ × Nat × Nat) : List (ℤ × Nat × Nat) → List (ℤ × Nat × Nat)
  | [] => [x]
  | y :: ys => if tripLe x y then x :: y :: ys else y :: insTrip x ys

/-- Python `sorted` on candidate triples (stable, ascending lexicographic). -/
def pySortTrip (l : List (ℤ × Nat × Nat)) : List (ℤ × Nat × Nat) :=
  l.foldr insTrip []

/-- Header finalization for line `i` (the loop body in `TreeContext.__init__`):
sort the candidates; with at least two candidates take the first of the sorted
list and clamp its end to `head_start + header_max` when `size > header_max`;
otherwise the header is `(i, i + 1)`. -/
def finalizeHeader (headerMax : Nat) (i : Nat) (cands : List (ℤ × Nat × Nat)) : Nat × Nat :=
  let sortedC := pySortTrip cands
  if 1 < sortedC.length then
    match sortedC with
    | (size, head_start, head_end) :: _ =>
      if (headerMax : ℤ) < size then (head_start, head_start + headerMax)
      else (head_start, head_end)
    | [] => (i, i + 1)
  else (i, i + 1)

/-- The configuration options of `TreeContext.__init__` that the core
algorithm reads. -/
structure Config where
  color : Bool
  line_number : Bool
  parent_context : Bool
  child_context : Bool
  last_line : Bool
  margin : Nat
  mark_lois : Bool
  header_max : Nat
  show_top_of_file_parent_scope : Bool
  loi_pad : Nat

/-- The immutable part of a `TreeContext` after construction: configuration,
source lines, and the finalized per-line tables. -/
structure Ctx where
  cfg : Config
  lines : List String
  scopes : List (List Nat)
  header : List (Nat × Nat)
  nodes : List (List TSNode)
  output_lines : List (Nat × String)

/-- `self.num_lines = len(self.lines) + 1`. -/
def Ctx.num_lines (c : Ctx) : Nat := c.lines.length + 1

/-- The construction-time pipeline of `TreeContext.__init__` after parsing:
allocate the tables, run `walk_tree` from the root, finalize the headers. -/
def buildCtx (cfg : Config) (lines : List String) (root : TSNode) : Option Ctx :=
  let num := lines.length + 1
  match walk_tree ⟨List.replicate num [], List.replicate num [], List.replicate num []⟩ root with
  | none => none
  | some t =>
    some ⟨cfg, lines, t.scopes,
      (t.headerCands.enum.map fun p => finalizeHeader cfg.header_max p.1 p.2),
      t.nodes, []⟩

/-- The mutable per-query state of a `TreeContext`. -/
structure CtxState where
  show_lines : Finset ℤ
  lines_of_interest : Finset ℤ
deriving DecidableEq

/-- `TreeContext.add_lines_of_interest`. -/
def add_lines_of_interest (st : CtxState) (line_nums : Finset ℤ) : CtxState :=
  { st with lines_of_interest := st.lines_of_interest ∪ line_nums }

/-- A `(show_lines, done_parent_scopes)` pair threaded through the expansion. -/
abbrev SD := Finset ℤ × Finset ℤ

/-- `TreeContext.get_last_line_of_scope`:
`max(node.end_point[0] for node in self.nodes[i])`; `none` on an
out-of-range index or an empty node list (Python raises there). -/
def get_last_line_of_scope (nodesTbl : List (List TSNode)) (i : ℤ) : Option Nat :=
  match pyGet nodesTbl i with
  | none => none
  | some [] => none
  | some (n :: rest) => some (rest.foldl (fun m x => max m x.endLine) n.endLine)

/-- The `for line_num in self.scopes[i]` loop body of
`TreeContext.add_parent_scopes`, parametrized by the recursive call
(`apcF`, the same function at one less fuel). -/
def apcLoopF (ctx : Ctx) (apcF : ℤ → Finset ℤ → Finset ℤ → Option SD) :
    List Nat → Finset ℤ → Finset ℤ → Option SD
  | [], shw, done => some (shw, done)
  | line_num :: rest, shw, done =>
    match pyGet ctx.header (line_num : ℤ) with
    | none => none
    | some (head_start, head_end) =>
      let shw1 := if 0 < head_start ∨ ctx.cfg.show_top_of_file_parent_scope then
          shw ∪ Finset.Ico (head_start : ℤ) (head_end : ℤ)
        else shw
      if ctx.cfg.last_line then
        match get_last_line_of_scope ctx.nodes (line_num : ℤ) with
        | none => none
        | some ll =>
          match apcF (ll : ℤ) shw1 done with
          | none => none
          | some (s2, d2) => apcLoopF ctx apcF rest s2 d2
      else apcLoopF ctx apcF rest shw1 done

/-- `TreeContext.add_parent_scopes` with an explicit fuel for the recursion
into the closing line of each scope (running out of fuel is `none`; the fuel
`num_lines + 2` used by every caller is proved sufficient for tables built by
`walk_tree`). -/
def add_parent_scopes (ctx : Ctx) : Nat → ℤ → Finset ℤ → Finset ℤ → Option SD
  | 0, _, _, _ => none
  | fuel + 1, i, shw, done =>
    if i ∈ done then some (shw, done)
    else
      if (ctx.scopes.length : ℤ) ≤ i then some (shw, insert i done)
      else
        match pyGet ctx.scopes i with
        | none => none
        | some scopeSet => apcLoopF ctx (add_parent_scopes ctx fuel) scopeSet shw (insert i done)

/-- The fuel every top-level `add_parent_scopes` call receives. -/
def FUEL (ctx : Ctx) : Nat := ctx.num_lines + 2

/-- Line span of a node, the sort key in `add_child_context`. -/
def childSpan (n : TSNode) : ℤ := (n.endLine : ℤ) - (n.startLine : ℤ)

def insChildDesc (x : TSNode) : List TSNode → List TSNode
  | [] => [x]
  | y :: ys => if childSpan x < childSpan y then y :: insChildDesc x ys else x :: y :: ys

/-- `sorted(children, key=span, reverse=True)` (stable, descending). -/
def sortChildrenDesc (l : List TSNode) : List TSNode :=
  l.foldr insChildDesc []

/-- The `for child in children` loop of `TreeContext.add_child_context`:
stop once more than `currently_showing + max_to_show` lines are shown,
otherwise add the parent scopes of the child's start line.  The Python
comparison `len(show_lines) > currently_showing + max(min(size * 0.10, 25), 5)`
is carried out here in exact arithmetic scaled by 10: `max_to_show10` is ten
times `max_to_show`. -/
def childLoop (ctx : Ctx) (currently : Nat) (max_to_show10 : ℤ) :
    List TSNode → Finset ℤ → Finset ℤ → Option SD
  | [], shw, done => some (shw, done)
  | child :: rest, shw, done =>
    if 10 * (currently : ℤ) + max_to_show10 < 10 * (shw.card : ℤ) then some (shw, done)
    else
      match add_parent_scopes ctx (FUEL ctx) (child.startLine : ℤ) shw done with
      | none => none
      | some (s2, d2) => childLoop ctx currently max_to_show10 rest s2 d2

/-- `TreeContext.add_child_context`.  `max(min(size * 0.10, 25), 5)` is
represented times 10 (`max(min(size, 250), 50)`) so the budget stays in `ℤ`. -/
def add_child_context (ctx : Ctx) (i : ℤ) (shw done : Finset ℤ) : Option SD :=
  match pyGet ctx.nodes i with
  | none => none
  | some [] => some (shw, done)
  | some (n :: ns) =>
    match get_last_line_of_scope ctx.nodes i with
    | none => none
    | some last_line =>
      if (last_line : ℤ) - i < 5 then
        some (shw ∪ Finset.Icc i (last_line : ℤ), done)
      else
        let children := sortChildrenDesc (((n :: ns).map find_all_children).flatten)
        let max_to_show10 : ℤ := max (min ((last_line : ℤ) - i) 250) 50
        childLoop ctx shw.card max_to_show10 children shw done

def insZ (x : ℤ) : List ℤ → List ℤ
  | [] => [x]
  | y :: ys => if x ≤ y then x :: y :: ys else y :: insZ x ys

def pySortZ (l : List ℤ) : List ℤ := l.foldr insZ []

/-- `insZ` inserts its element and keeps the rest (as a permutation). -/
def insZ_perm : ∀ (x : ℤ) (l : List ℤ), (insZ x l).Perm (x :: l) := by
  intro x l
  induction l with
  | nil => simp [insZ]
  | cons y ys ih =>
    by_cases h : x ≤ y
    · simp [insZ, h]
    · simpa [insZ, h] using ((ih.cons y).trans (List.Perm.swap x y ys))

/-- `pySortZ` permutes its input. -/
def pySortZ_perm : ∀ l : List ℤ, (pySortZ l).Perm l := by
  intro l
  induction l with
  | nil => simp [pySortZ]
  | cons y ys ih => exact (insZ_perm y (pySortZ ys)).trans (ih.cons y)

/-- Members of `insZ x l`. -/
def mem_insZ : ∀ (a x : ℤ) (l : List ℤ), a ∈ insZ x l ↔ a = x ∨ a ∈ l := by
  intro a x l
  constructor
  · intro h
    rcases List.mem_cons.mp ((insZ_perm x l).mem_iff.mp h) with h' | h'
    · exact Or.inl h'
    · exact Or.inr h'
  · intro h
    exact (insZ_perm x l).mem_iff.mpr (List.mem_cons.mpr h)

/-- `insZ` preserves sortedness. -/
def insZ_sorted : ∀ (x : ℤ) (l : List ℤ), l.Sorted (· ≤ ·) → (insZ x l).Sorted (· ≤ ·) := by
  intro x l
  induction l with
  | nil => intro _; simp [insZ]
  | cons y ys ih =>
    intro hs
    rw [List.sorted_cons] at hs
    by_cases h : x ≤ y
    · rw [insZ, if_pos h, List.sorted_cons]
      refine ⟨?_, List.sorted_cons.mpr hs⟩
      intro b hb
      rcases List.mem_cons.mp hb with hb' | hb'
      · exact hb' ▸ h
      · exact le_trans h (hs.1 b hb')
    · rw [insZ, if_neg h, List.sorted_cons]
      refine ⟨?_, ih hs.2⟩
      intro b hb
      rcases (mem_insZ b x ys).mp hb with hb' | hb'
      · have hyx : y ≤ x := le_of_not_le h
        omega
      · exact hs.1 b hb'

/-- `pySortZ` sorts ascending. -/
def pySortZ_sorted : ∀ l : List ℤ, (pySortZ l).Sorted (· ≤ ·) := by
  intro l
  induction l with
  | nil => simp [pySortZ]
  | cons y ys ih => exact insZ_sorted y (pySortZ ys) ih

/-- Ascending iteration order over a Python set of line numbers
(`sorted(s)`, and the model's order for plain set iteration). -/
def sortedSet (s : Finset ℤ) : List ℤ :=
  Quot.liftOn s.val pySortZ (fun l₁ l₂ h =>
    List.eq_of_perm_of_sorted
      ((pySortZ_perm l₁).trans ((List.Perm.trans h (pySortZ_perm l₂).symm)))
      (pySortZ_sorted l₁) (pySortZ_sorted l₂))

/-- `for i in set(self.lines_of_interest): self.add_parent_scopes(i)`. -/
def apcFold (ctx : Ctx) : List ℤ → Finset ℤ → Finset ℤ → Option SD
  | [], shw, done => some (shw, done)
  | i :: rest, shw, done =>
    match add_parent_scopes ctx (FUEL ctx) i shw done with
    | none => none
    | some (s2, d2) => apcFold ctx rest s2 d2

/-- `for i in set(self.lines_of_interest): self.add_child_context(i)`. -/
def childFold (ctx : Ctx) : List ℤ → Finset ℤ → Finset ℤ → Option SD
  | [], shw, done => some (shw, done)
  | i :: rest, shw, done =>
    match add_child_context ctx i shw done with
    | none => none
    | some (s2, d2) => childFold ctx rest s2 d2

/-- First pass of `close_small_gaps`: the single line between two consecutive
shown lines exactly 2 apart. -/
def gapFill : List ℤ → Finset ℤ
  | a :: b :: rest => (if b - a = 2 then {a + 1} else (∅ : Finset ℤ)) ∪ gapFill (b :: rest)
  | _ => ∅

/-- Truthiness of Python `line.strip()`: `true` iff the stripped string is
empty, i.e. the line is all whitespace. -/
def stripEmpty (s : String) : Bool := s.data.all (fun c => c.isWhitespace)

/-- Second pass of `close_small_gaps`: pick up the blank line that follows a
shown non-blank line (the membership test sees earlier additions, as in the
Python loop that mutates `closed_show` while iterating over `self.lines`). -/
def passB (ctx : Ctx) : List (Nat × String) → Finset ℤ → Option (Finset ℤ)
  | [], closed => some closed
  | (i, line) :: rest, closed =>
    if (i : ℤ) ∈ closed then
      if stripEmpty line = false ∧ (i : ℤ) < (ctx.num_lines : ℤ) - 2 then
        match pyGet ctx.lines ((i : ℤ) + 1) with
        | none => none
        | some nxt =>
          passB ctx rest (if stripEmpty nxt then insert ((i : ℤ) + 1) closed else closed)
      else passB ctx rest closed
    else passB ctx rest closed

/-- `TreeContext.close_small_gaps`. -/
def close_small_gaps (ctx : Ctx) (shw : Finset ℤ) : Option (Finset ℤ) :=
  passB ctx ctx.lines.enum (shw ∪ gapFill (sortedSet shw))

/-- Step 2 of `add_context`: pad each line of interest by `loi_pad` on both
sides, clipped to `[0, num_lines)`. -/
def step_pad (ctx : Ctx) (s0 : Finset ℤ) : Finset ℤ :=
  if ctx.cfg.loi_pad ≠ 0 then
    s0 ∪ s0.biUnion (fun line =>
      (Finset.Icc (line - (ctx.cfg.loi_pad : ℤ)) (line + (ctx.cfg.loi_pad : ℤ))).filter
        (fun new_line => ¬((ctx.num_lines : ℤ) ≤ new_line ∨ new_line < 0)))
  else s0

/-- Step 3 of `add_context`: show the bottom line `num_lines - 2` and add its
parent scopes. -/
def step_last (ctx : Ctx) (s1 : Finset ℤ) : Option SD :=
  if ctx.cfg.last_line then
    add_parent_scopes ctx (FUEL ctx) ((ctx.num_lines : ℤ) - 2)
      (insert ((ctx.num_lines : ℤ) - 2) s1) ∅
  else some (s1, ∅)

/-- Step 4 of `add_context`: parent scopes of every line of interest. -/
def step_parent (ctx : Ctx) (loi : Finset ℤ) (sd : SD) : Option SD :=
  if ctx.cfg.parent_context then apcFold ctx (sortedSet loi) sd.1 sd.2 else some sd

/-- Step 5 of `add_context`: child context of every line of interest. -/
def step_child (ctx : Ctx) (loi : Finset ℤ) (sd : SD) : Option SD :=
  if ctx.cfg.child_context then childFold ctx (sortedSet loi) sd.1 sd.2 else some sd

/-- Step 6 of `add_context`: the top margin `range(self.margin)`. -/
def step_margin (ctx : Ctx) (s : Finset ℤ) : Finset ℤ :=
  if ctx.cfg.margin ≠ 0 then s ∪ Finset.Ico (0 : ℤ) (ctx.cfg.margin : ℤ) else s

/-- `TreeContext.add_context` (the spec's `expand_context()`): early return on
an empty interest set, otherwise rebuild `show_lines` from scratch through the
padding, last-line, parent-scope, child-context, margin and gap-closing steps. -/
def add_context (ctx : Ctx) (st : CtxState) : Option CtxState :=
  if st.lines_of_interest = ∅ then some st
  else
    (step_last ctx (step_pad ctx st.lines_of_interest)).bind fun sd2 =>
    (step_parent ctx st.lines_of_interest sd2).bind fun sd3 =>
    (step_child ctx st.lines_of_interest sd3).bind fun sd4 =>
    (close_small_gaps ctx (step_margin ctx sd4.1)).bind fun s6 =>
    some ⟨s6, st.lines_of_interest⟩

/-- `f"{i + 1: 3}"`: sign-space plus right alignment to width 3. -/
def numFmt (n : Nat) : String :=
  if n < 10 then "  " ++ toString n else " " ++ toString n

/-- The `for i, line in enumerate(self.lines)` loop of `TreeContext.format`,
threading the accumulated output and the `dots` flag. -/
def formatLoop (ctx : Ctx) (st : CtxState) : List (Nat × String) → String → Bool → String
  | [], out, _ => out
  | (i, line) :: rest, out, dots =>
    if (i : ℤ) ∈ st.show_lines then
      let isLoi := (i : ℤ) ∈ st.lines_of_interest ∧ ctx.cfg.mark_lois
      let spacer := if isLoi then "█" else "│"
      let spacer := if ctx.cfg.color ∧ isLoi then "\x1b[31m█\x1b[0m" else spacer
      let line_output := spacer ++ ((ctx.output_lines.lookup i).getD line)
      let line_output := if ctx.cfg.line_number then numFmt (i + 1) ++ line_output else line_output
      formatLoop ctx st rest (out ++ line_output ++ "\n") true
    else
      if dots then
        formatLoop ctx st rest
          (out ++ (if ctx.cfg.line_number then numFmt (i + 1) ++ "...⋮...\n" else "⋮\n")) false
      else formatLoop ctx st rest out false

/-- `TreeContext.format` (the spec's `render()`). -/
def format (ctx : Ctx) (st : CtxState) : String :=
  if st.show_lines = ∅ then ""
  else
    formatLoop ctx st ctx.lines.enum
      (if ctx.cfg.color then "\x1b[0m\n" else "")
      (if (0 : ℤ) ∈ st.show_lines then false else true)

/-- `max(node.end_point[0] for node in nl)` over a possibly-empty list,
starting from 0. -/
def maxEnd (l : List TSNode) : Nat :=
  l.foldl (fun m x => max m x.endLine) 0

/-- Invariant of the tables during `walk_tree`: fixed lengths, and every
scope-start `s` recorded on line `i` satisfies `s ≤ i` and is witnessed by a
recorded node at `s` whose maximal end line is at least `i`. -/
structure WalkInv (num : Nat) (t : WalkTables) : Prop where
  scopes_len : t.scopes.length = num
  cands_len : t.headerCands.length = num
  nodes_len : t.nodes.length = num
  containment : ∀ i sl, t.scopes.get? i = some sl → ∀ s ∈ sl,
    s ≤ i ∧ ∃ nl, t.nodes.get? s = some nl ∧ nl ≠ [] ∧ i ≤ maxEnd nl

/-- All recorded nodes have both end points inside `[0, num)`. -/
def NodesBounded (num : Nat) (t : WalkTables) : Prop :=
  ∀ nl ∈ t.nodes, ∀ n ∈ nl, n.startLine < num ∧ n.endLine < num

/-- Well-formedness of the finalized tables of a `Ctx`, as produced by
construction from a tree satisfying the parser contract. -/
structure TablesWF (ctx : Ctx) : Prop where
  scopes_len : ctx.scopes.length = ctx.num_lines
  header_len : ctx.header.length = ctx.num_lines
  nodes_len : ctx.nodes.length = ctx.num_lines
  scopes_ok : ∀ i sl, ctx.scopes.get? i = some sl → ∀ s ∈ sl,
    s < ctx.num_lines ∧ ∃ nl, ctx.nodes.get? s = some nl ∧ nl ≠ [] ∧
      ∀ n ∈ nl, n.endLine < ctx.num_lines

/-- The number of in-range lines not yet in the `done_parent_scopes` set: the
termination measure of `add_parent_scopes`. -/
def mRem (ctx : Ctx) (d : Finset ℤ) : Nat :=
  ((Finset.Icc (0 : ℤ) ((ctx.scopes.length : ℤ) - 1)).filter (fun x => x ∉ d)).card

/-- `walk_tree` only appends to the per-line node lists. -/
def NodesExtend (t t' : WalkTables) : Prop :=
  ∀ j nl, t.nodes.get? j = some nl → ∃ ext, t'.nodes.get? j = some (nl ++ ext)

/-- The three table lengths are unchanged. -/
def LenEq (t t' : WalkTables) : Prop :=
  t'.scopes.length = t.scopes.length ∧ t'.headerCands.length = t.headerCands.length ∧
    t'.nodes.length = t.nodes.length

/-! ### Concrete instances used by witnesses and counterexamples. -/

/-- The Python default configuration of `TreeContext.__init__`. -/
def cfg0 : Config := ⟨false, false, true, true, true, 3, true, 10, true, 1⟩

/-- A six-line file whose root node spans lines 0-5: exactly one header
candidate at line 0. -/
def linesA : List String := ["x", "x", "x", "x", "x", "x"]

def rootA : TSNode := .mk 0 5 []

def ctxA : Ctx := ⟨cfg0, linesA, [[0], [0], [0], [0], [0], [0], []],
  [(0, 1), (1, 2), (2, 3), (3, 4), (4, 5), (5, 6), (6, 7)],
  [[rootA], [], [], [], [], [], []], []⟩

/-- A four-line file with blank lines 1 and 2, root spanning lines 0-3;
configuration with padding, margin, last-line and child context disabled. -/
def cfgB : Config :=
  { cfg0 with child_context := false, last_line := false, margin := 0, loi_pad := 0 }

def linesB : List String := ["a", "", "", "b"]

def rootB : TSNode := .mk 0 3 []

def ctxB : Ctx := ⟨cfgB, linesB, [[0], [0], [0], [0], []],
  [(0, 1), (1, 2), (2, 3), (3, 4), (4, 5)], [[rootB], [], [], [], []], []⟩

/-- `ctxB` with child-context expansion enabled. -/
def ctxBchild : Ctx := { ctxB with cfg := { cfgB with child_context := true } }

/-- A two-line file; parent context disabled, child context enabled. -/
def cfgC : Config :=
  { cfg0 with
      parent_context := false
      child_context := true
      last_line := false
      margin := 0
      loi_pad := 0 }

def linesC : List String := ["x", "y"]

def rootC : TSNode := .mk 0 1 []

def ctxC : Ctx := ⟨cfgC, linesC, [[0], [0], []], [(0, 1), (1, 2), (2, 3)], [[rootC], [], []], []⟩

/-- A 21-line file with two constructs starting at line 0: one spanning
lines 0-20 and a nested one spanning lines 0-2. -/
def linesD : List String := List.replicate 21 "x"

def rootD : TSNode := .mk 0 20 [.mk 0 2 []]

def ctxD : Ctx := ⟨cfgC, linesD, List.replicate 21 [0] ++ [[]],
  (0, 2) :: (List.range' 1 21).map (fun i => (i, i + 1)),
  [[rootD, .mk 0 2 []]] ++ List.replicate 21 [], []⟩

/-- A ten-line file with nested scopes 0-9, 2-8 and 6-8; child context off,
margin and padding 0, `last_line` on. -/
def cfgET : Config := { cfg0 with child_context := false, margin := 0, loi_pad := 0 }

/-- `cfgET` with `last_line` off. -/
def cfgEF : Config := { cfgET with last_line := false }

def linesE : List String := List.replicate 10 "x"

def rootE : TSNode := .mk 0 9 [.mk 2 8 [.mk 6 8 []]]

def scopesE : List (List Nat) :=
  [[0], [0], [0, 2], [0, 2], [0, 2], [0, 2], [0, 2, 6], [0, 2, 6], [0, 2, 6], [0], []]

def headerE : List (Nat × Nat) :=
  (List.range' 0 11).map (fun i => (i, i + 1))

def nodesE : List (List TSNode) :=
  [[rootE], [], [.mk 2 8 [.mk 6 8 []]], [], [], [], [.mk 6 8 []], [], [], [], []]

def ctxET : Ctx := ⟨cfgET, linesE, scopesE, headerE, nodesE, []⟩

def ctxEF : Ctx := ⟨cfgEF, linesE, scopesE, headerE, nodesE, []⟩

/-- A one-line file, used to probe `format` with out-of-range show lines. -/
def ctxJ : Ctx := ⟨{ cfg0 with margin := 0 }, ["x"], [[0], []], [(0, 1), (1, 2)],
  [[.mk 0 0 []], []], []⟩

/-! ### Monotonicity of the expansion: every step only adds shown lines. -/

theorem apcLoopF_mono (ctx : Ctx) (apcF : ℤ → Finset ℤ → Finset ℤ → Option SD)
    (hF : ∀ i s d out, apcF i s d = some out → s ⊆ out.1 ∧ d ⊆ out.2) :
    ∀ ls s d out, apcLoopF ctx apcF ls s d = some out → s ⊆ out.1 ∧ d ⊆ out.2 := by
  intro ls
  induction ls with
  | nil =>
    intro s d out h
    simp only [apcLoopF] at h
    cases h
    exact ⟨Finset.Subset.refl _, Finset.Subset.refl _⟩
  | cons ln rest ih =>
    intro s d out h
    simp only [apcLoopF] at h
    split at h
    · exact absurd h (by simp)
    · rename_i hd he hget
      set s1 := if 0 < hd ∨ ctx.cfg.show_top_of_file_parent_scope then
          s ∪ Finset.Ico (hd : ℤ) (he : ℤ) else s with hs1
      have hss1 : s ⊆ s1 := by
        rw [hs1]
        split
        · exact Finset.subset_union_left
        · exact Finset.Subset.refl _
      split at h
      · split at h
        · exact absurd h (by simp)
        · rename_i ll hll
          split at h
          · exact absurd h (by simp)
          · rename_i sd2 hapc
            obtain ⟨h1, h2⟩ := hF _ _ _ _ hapc
            obtain ⟨h3, h4⟩ := ih _ _ _ h
            exact ⟨hss1.trans (h1.trans h3), h2.trans h4⟩
      · obtain ⟨h3, h4⟩ := ih _ _ _ h
        exact ⟨hss1.trans h3, h4⟩

theorem add_parent_scopes_mono (ctx : Ctx) :
    ∀ fuel i s d out, add_parent_scopes ctx fuel i s d = some out →
      s ⊆ out.1 ∧ d ⊆ out.2 := by
  intro fuel
  induction fuel with
  | zero => intro i s d out h; exact absurd h (by simp [add_parent_scopes])
  | succ fuel ih =>
    intro i s d out h
    simp only [add_parent_scopes] at h
    split at h
    · cases h; exact ⟨Finset.Subset.refl _, Finset.Subset.refl _⟩
    · split at h
      · cases h; exact ⟨Finset.Subset.refl _, Finset.subset_insert _ _⟩
      · split at h
        · exact absurd h (by simp)
        · obtain ⟨h1, h2⟩ := apcLoopF_mono ctx _ ih _ _ _ _ h
          exact ⟨h1, (Finset.subset_insert _ _).trans h2⟩

theorem childLoop_mono (ctx : Ctx) (currently : Nat) (mts : ℤ) :
    ∀ ls s d out, childLoop ctx currently mts ls s d = some out →
      s ⊆ out.1 ∧ d ⊆ out.2 := by
  intro ls
  induction ls with
  | nil =>
    intro s d out h
    simp only [childLoop] at h
    cases h
    exact ⟨Finset.Subset.refl _, Finset.Subset.refl _⟩
  | cons c rest ih =>
    intro s d out h
    simp only [childLoop] at h
    split at h
    · cases h; exact ⟨Finset.Subset.refl _, Finset.Subset.refl _⟩
    · split at h
      · exact absurd h (by simp)
      · rename_i sd2 hapc
        obtain ⟨h1, h2⟩ := add_parent_scopes_mono ctx _ _ _ _ _ hapc
        obtain ⟨h3, h4⟩ := ih _ _ _ h
        exact ⟨h1.trans h3, h2.trans h4⟩

theorem add_child_context_mono (ctx : Ctx) (i : ℤ) (s d : Finset ℤ) (out : SD)
    (h : add_child_context ctx i s d = some out) : s ⊆ out.1 ∧ d ⊆ out.2 := by
  simp only [add_child_context] at h
  split at h
  · exact absurd h (by simp)
  · cases h; exact ⟨Finset.Subset.refl _, Finset.Subset.refl _⟩
  · split at h
    · exact absurd h (by simp)
    · split at h
      · cases h; exact ⟨Finset.subset_union_left, Finset.Subset.refl _⟩
      · exact childLoop_mono ctx _ _ _ _ _ _ h

theorem apcFold_mono (ctx : Ctx) :
    ∀ ls s d out, apcFold ctx ls s d = some out → s ⊆ out.1 ∧ d ⊆ out.2 := by
  intro ls
  induction ls with
  | nil =>
    intro s d out h
    simp only [apcFold] at h
    cases h
    exact ⟨Finset.Subset.refl _, Finset.Subset.refl _⟩
  | cons i rest ih =>
    intro s d out h
    simp only [apcFold] at h
    split at h
    · exact absurd h (by simp)
    · rename_i sd2 hapc
      obtain ⟨h1, h2⟩ := add_parent_scopes_mono ctx _ _ _ _ _ hapc
      obtain ⟨h3, h4⟩ := ih _ _ _ h
      exact ⟨h1.trans h3, h2.trans h4⟩

theorem childFold_mono (ctx : Ctx) :
    ∀ ls s d out, childFold ctx ls s d = some out → s ⊆ out.1 ∧ d ⊆ out.2 := by
  intro ls
  induction ls with
  | nil =>
    intro s d out h
    simp only [childFold] at h
    cases h
    exact ⟨Finset.Subset.refl _, Finset.Subset.refl _⟩
  | cons i rest ih =>
    intro s d out h
    simp only [childFold] at h
    split at h
    · exact absurd h (by simp)
    · rename_i sd2 hacc
      obtain ⟨h1, h2⟩ := add_child_context_mono ctx _ _ _ _ hacc
      obtain ⟨h3, h4⟩ := ih _ _ _ h
      exact ⟨h1.trans h3, h2.trans h4⟩

theorem passB_mono (ctx : Ctx) :
    ∀ l closed out, passB ctx l closed = some out → closed ⊆ out := by
  intro l
  induction l with
  | nil =>
    intro closed out h
    simp only [passB] at h
    cases h
    exact Finset.Subset.refl _
  | cons p rest ih =>
    intro closed out h
    obtain ⟨i, line⟩ := p
    simp only [passB] at h
    split at h
    · split at h
      · split at h
        · exact absurd h (by simp)
        · have := ih _ _ h
          refine Finset.Subset.trans ?_ this
          split
          · exact Finset.subset_insert _ _
          · exact Finset.Subset.refl _
      · exact ih _ _ h
    · exact ih _ _ h

theorem close_small_gaps_mono (ctx : Ctx) (shw out : Finset ℤ)
    (h : close_small_gaps ctx shw = some out) : shw ⊆ out := by
  simp only [close_small_gaps] at h
  exact Finset.Subset.trans Finset.subset_union_left (passB_mono ctx _ _ _ h)

theorem step_pad_mono (ctx : Ctx) (s : Finset ℤ) : s ⊆ step_pad ctx s := by
  simp only [step_pad]
  split
  · exact Finset.subset_union_left
  · exact Finset.Subset.refl _

theorem step_last_mono (ctx : Ctx) (s : Finset ℤ) (out : SD)
    (h : step_last ctx s = some out) : s ⊆ out.1 := by
  simp only [step_last] at h
  split at h
  · have := (add_parent_scopes_mono ctx _ _ _ _ _ h).1
    exact (Finset.subset_insert _ _).trans this
  · cases h; exact Finset.Subset.refl _

theorem step_parent_mono (ctx : Ctx) (loi : Finset ℤ) (sd out : SD)
    (h : step_parent ctx loi sd = some out) : sd.1 ⊆ out.1 := by
  simp only [step_parent] at h
  split at h
  · exact (apcFold_mono ctx _ _ _ _ h).1
  · cases h; exact Finset.Subset.refl _

theorem step_child_mono (ctx : Ctx) (loi : Finset ℤ) (sd out : SD)
    (h : step_child ctx loi sd = some out) : sd.1 ⊆ out.1 := by
  simp only [step_child] at h
  split at h
  · exact (childFold_mono ctx _ _ _ _ h).1
  · cases h; exact Finset.Subset.refl _

theorem step_margin_mono (ctx : Ctx) (s : Finset ℤ) : s ⊆ step_margin ctx s := by
  simp only [step_margin]
  split
  · exact Finset.subset_union_left
  · exact Finset.Subset.refl _

/-- C3: for every state of the lines of interest and every configuration,
after `add_context` (`expand_context()`) returns, every line of interest is in
the show set: `LinesOfInterest ⊆ ShowSet`. -/
theorem C3_monotonic_expansion (ctx : Ctx) (st st' : CtxState)
    (h : add_context ctx st = some st') :
    st.lines_of_interest ⊆ st'.show_lines := by
  simp only [add_context] at h
  split at h
  · rename_i hloi
    cases h
    rw [hloi]
    exact Finset.empty_subset _
  · rw [Option.bind_eq_some] at h
    obtain ⟨sd2, h2, h⟩ := h
    rw [Option.bind_eq_some] at h
    obtain ⟨sd3, h3, h⟩ := h
    rw [Option.bind_eq_some] at h
    obtain ⟨sd4, h4, h⟩ := h
    rw [Option.bind_eq_some] at h
    obtain ⟨s6, h6, h⟩ := h
    cases h
    have hpad := step_pad_mono ctx st.lines_of_interest
    have hlast := step_last_mono ctx _ _ h2
    have hparent := step_parent_mono ctx _ _ _ h3
    have hchild := step_child_mono ctx _ _ _ h4
    have hmargin := step_margin_mono ctx sd4.1
    have hgaps := close_small_gaps_mono ctx _ _ h6
    exact (((((hpad.trans hlast).trans hparent).trans hchild).trans hmargin).trans hgaps)

/-- C7: `add_context` resets `show_lines` and `done_parent_scopes` at entry
and reads only the (unchanged) lines of interest, so running it again from the
state it produced yields exactly the same state, in particular an identical
show set. -/
theorem C7_expand_idempotent (ctx : Ctx) (st st' : CtxState)
    (h : add_context ctx st = some st') :
    add_context ctx st' = some st' := by
  simp only [add_context] at h ⊢
  split at h
  · rename_i hloi
    cases h
    rw [if_pos hloi]
  · rename_i hloi
    rw [Option.bind_eq_some] at h
    obtain ⟨sd2, h2, h⟩ := h
    rw [Option.bind_eq_some] at h
    obtain ⟨sd3, h3, h⟩ := h
    rw [Option.bind_eq_some] at h
    obtain ⟨sd4, h4, h⟩ := h
    rw [Option.bind_eq_some] at h
    obtain ⟨s6, h6, h⟩ := h
    cases h
    rw [if_neg hloi]
    exact Option.bind_eq_some.mpr ⟨sd2, h2, Option.bind_eq_some.mpr ⟨sd3, h3,
      Option.bind_eq_some.mpr ⟨sd4, h4, Option.bind_eq_some.mpr ⟨s6, h6, rfl⟩⟩⟩⟩

/-- C8: with an empty interest set, `add_context` returns immediately leaving
the state untouched (so an empty show set stays empty, with no margin,
last-line or padding additions), and `format` (`render()`) on an empty show
set returns the empty string. -/
theorem C8_empty_interest_noop (ctx : Ctx) (st : CtxState)
    (hloi : st.lines_of_interest = ∅) (hshow : st.show_lines = ∅) :
    add_context ctx st = some st ∧ format ctx st = "" := by
  constructor
  · simp [add_context, hloi]
  · simp [format, hshow]

theorem C3_witness :
    add_context ctxB ⟨∅, {0, 3}⟩ = some ⟨{1, 3, 0}, {0, 3}⟩ ∧
    ({0, 3} : Finset ℤ) ⊆ ({1, 3, 0} : Finset ℤ) :=
  ⟨Eq.refl _, C3_monotonic_expansion ctxB ⟨∅, {0, 3}⟩ ⟨{1, 3, 0}, {0, 3}⟩ (Eq.refl _)⟩

theorem C7_witness :
    add_context ctxB ⟨∅, {0, 3}⟩ = some ⟨{1, 3, 0}, {0, 3}⟩ ∧
    add_context ctxB ⟨{1, 3, 0}, {0, 3}⟩ = some ⟨{1, 3, 0}, {0, 3}⟩ :=
  ⟨by exact Eq.refl _,
   C7_expand_idempotent ctxB ⟨∅, {0, 3}⟩ ⟨{1, 3, 0}, {0, 3}⟩ (by exact Eq.refl _)⟩

theorem C8_witness :
    add_context ctxB ⟨∅, ∅⟩ = some ⟨∅, ∅⟩ ∧ format ctxB ⟨∅, ∅⟩ = "" :=
  C8_empty_interest_noop ctxB ⟨∅, ∅⟩ rfl rfl

/-! ### Header finalization (C1). -/

theorem tripLe_refl (a : ℤ × Nat × Nat) : tripLe a a = true := by
  simp [tripLe]

theorem tripLe_trans {a b c : ℤ × Nat × Nat}
    (h1 : tripLe a b = true) (h2 : tripLe b c = true) : tripLe a c = true := by
  simp only [tripLe, Bool.or_eq_true, Bool.and_eq_true, decide_eq_true_eq] at h1 h2 ⊢
  omega

theorem tripLe_total (a b : ℤ × Nat × Nat) : tripLe a b = true ∨ tripLe b a = true := by
  simp only [tripLe, Bool.or_eq_true, Bool.and_eq_true, decide_eq_true_eq]
  omega

theorem insTrip_perm (x : ℤ × Nat × Nat) (l : List (ℤ × Nat × Nat)) :
    (insTrip x l).Perm (x :: l) := by
  induction l with
  | nil => simp [insTrip]
  | cons y ys ih =>
    by_cases h : tripLe x y
    · simp [insTrip, h]
    · simpa [insTrip, h] using ((ih.cons y).trans (List.Perm.swap x y ys))

theorem pySortTrip_perm (l : List (ℤ × Nat × Nat)) : (pySortTrip l).Perm l := by
  induction l with
  | nil => simp [pySortTrip]
  | cons y ys ih => exact (insTrip_perm y (pySortTrip ys)).trans (ih.cons y)

theorem insTrip_pairwise (x : ℤ × Nat × Nat) (l : List (ℤ × Nat × Nat))
    (hl : l.Pairwise (fun a b => tripLe a b = true)) :
    (insTrip x l).Pairwise (fun a b => tripLe a b = true) := by
  induction l with
  | nil => simp [insTrip]
  | cons y ys ih =>
    rw [List.pairwise_cons] at hl
    by_cases h : tripLe x y
    · rw [insTrip, if_pos h, List.pairwise_cons]
      refine ⟨?_, List.pairwise_cons.mpr hl⟩
      intro b hb
      rcases List.mem_cons.mp hb with hb' | hb'
      · exact hb' ▸ h
      · exact tripLe_trans h (hl.1 b hb')
    · rw [insTrip, if_neg h, List.pairwise_cons]
      refine ⟨?_, ih hl.2⟩
      intro b hb
      rcases List.mem_cons.mp ((insTrip_perm x ys).mem_iff.mp hb) with hb' | hb'
      · rcases tripLe_total x y with h' | h'
        · exact absurd h' h
        · exact hb'.symm ▸ h'
      · exact hl.1 b hb'

theorem pySortTrip_pairwise (l : List (ℤ × Nat × Nat)) :
    (pySortTrip l).Pairwise (fun a b => tripLe a b = true) := by
  induction l with
  | nil => simp [pySortTrip]
  | cons y ys ih => exact insTrip_pairwise y (pySortTrip ys) ih

/-- C1 (amended): with fewer than two recorded candidates the finalized header
of line `i` is `(i, i + 1)` — in particular a line with exactly one multi-line
candidate does NOT get a header derived from it; with at least two candidates
the header is derived from the lexicographically smallest candidate, i.e. the
one with the SMALLEST size, with its end clamped to `head_start + header_max`
when `size > header_max`. -/
theorem C1_header_finalization (hm i : Nat) (cands : List (ℤ × Nat × Nat)) :
    (cands.length ≤ 1 → finalizeHeader hm i cands = (i, i + 1)) ∧
    (2 ≤ cands.length → ∃ c, c ∈ cands ∧ (∀ z ∈ cands, tripLe c z = true) ∧
      finalizeHeader hm i cands =
        (if (hm : ℤ) < c.1 then (c.2.1, c.2.1 + hm) else (c.2.1, c.2.2))) := by
  have hlen : (pySortTrip cands).length = cands.length := (pySortTrip_perm cands).length_eq
  constructor
  · intro h
    simp only [finalizeHeader]
    rw [if_neg (by omega)]
  · intro h
    match hsort : pySortTrip cands with
    | [] => rw [hsort] at hlen; simp at hlen; omega
    | (size, hs, he) :: rest =>
      refine ⟨(size, hs, he), ?_, ?_, ?_⟩
      · exact (pySortTrip_perm cands).mem_iff.mp (hsort ▸ List.mem_cons_self _ _)
      · intro z hz
        have hz' : z ∈ (size, hs, he) :: rest :=
          hsort ▸ (pySortTrip_perm cands).mem_iff.mpr hz
        rcases List.mem_cons.mp hz' with rfl | hz''
        · exact tripLe_refl _
        · have hp := pySortTrip_pairwise cands
          rw [hsort, List.pairwise_cons] at hp
          exact hp.1 z hz''
      · simp only [finalizeHeader, hsort]
        rw [if_pos (by rw [← hsort] at *; omega)]

/-- C1 counterexample: a line with exactly one multi-line candidate `(5, 0, 5)`
gets the identity header `(0, 1)` rather than one derived from the candidate
(which would be `(0, 5)`); with candidates `(5, 0, 5)` and `(2, 0, 2)` the code
picks the SMALLEST, producing `(0, 2)` rather than `(0, 5)` from the largest. -/
theorem C1_counterexample :
    buildCtx cfg0 linesA rootA = some ctxA ∧
    ctxA.header.get? 0 = some (0, 1) ∧ ((0, 1) : Nat × Nat) ≠ (0, 5) ∧
    finalizeHeader 10 0 [((5 : ℤ), 0, 5), ((2 : ℤ), 0, 2)] = (0, 2) ∧
    ((0, 2) : Nat × Nat) ≠ (0, 5) :=
  ⟨Eq.refl _, Eq.refl _, by decide, Eq.refl _, by decide⟩

theorem C1_witness :
    2 ≤ ([((5 : ℤ), 0, 5), ((2 : ℤ), 0, 2)] : List (ℤ × Nat × Nat)).length ∧
    (∃ c, c ∈ ([((5 : ℤ), 0, 5), ((2 : ℤ), 0, 2)] : List (ℤ × Nat × Nat)) ∧
      (∀ z ∈ ([((5 : ℤ), 0, 5), ((2 : ℤ), 0, 2)] : List (ℤ × Nat × Nat)), tripLe c z = true) ∧
      finalizeHeader 10 0 [((5 : ℤ), 0, 5), ((2 : ℤ), 0, 2)] =
        (if (10 : ℤ) < c.1 then (c.2.1, c.2.1 + 10) else (c.2.1, c.2.2))) :=
  ⟨by decide, (C1_header_finalization 10 0 [((5 : ℤ), 0, 5), ((2 : ℤ), 0, 2)]).2 (by decide)⟩

/-! ### Gap closing (C5). -/

theorem sortedSet_sorted (s : Finset ℤ) : (sortedSet s).Sorted (· ≤ ·) := by
  obtain ⟨m, nd⟩ := s
  revert nd
  induction m using Quot.inductionOn with
  | h l => intro nd; exact pySortZ_sorted l

theorem sortedSet_nodup (s : Finset ℤ) : (sortedSet s).Nodup := by
  obtain ⟨m, nd⟩ := s
  revert nd
  induction m using Quot.inductionOn with
  | h l =>
    intro nd
    exact (pySortZ_perm l).nodup_iff.mpr nd

theorem mem_sortedSet {a : ℤ} {s : Finset ℤ} : a ∈ sortedSet s ↔ a ∈ s := by
  obtain ⟨m, nd⟩ := s
  revert nd
  induction m using Quot.inductionOn with
  | h l =>
    intro nd
    have h1 : a ∈ sortedSet ⟨Quot.mk _ l, nd⟩ ↔ a ∈ l := (pySortZ_perm l).mem_iff
    rw [h1, Finset.mem_mk]
    exact Iff.symm Multiset.mem_coe

theorem sortedSet_sorted_lt (s : Finset ℤ) : (sortedSet s).Sorted (· < ·) := by
  have h1 := sortedSet_sorted s
  have h2 := sortedSet_nodup s
  exact (h1.and h2).imp (fun h => lt_of_le_of_ne h.1 h.2)

theorem gapFill_subset_cons (x : ℤ) (l : List ℤ) : gapFill l ⊆ gapFill (x :: l) := by
  cases l with
  | nil => simp [gapFill]
  | cons y ys =>
    simp only [gapFill]
    exact Finset.subset_union_right

/-- A one-line gap between two members of a strictly sorted list is filled by
the first pass of `close_small_gaps`. -/
theorem gapFill_fills (l : List ℤ) (hs : l.Sorted (· < ·)) (a : ℤ)
    (ha : a ∈ l) (ha2 : a + 2 ∈ l) (hn : a + 1 ∉ l) : a + 1 ∈ gapFill l := by
  induction l with
  | nil => simp at ha
  | cons x rest ih =>
    rw [List.sorted_cons] at hs
    rcases List.mem_cons.mp ha with rfl | ha'
    · have h2 : a + 2 ∈ rest := by
        rcases List.mem_cons.mp ha2 with h | h
        · omega
        · exact h
      cases rest with
      | nil => simp at h2
      | cons b rest2 =>
        have hab : a < b := hs.1 b (List.mem_cons_self _ _)
        have hb : b - a = 2 := by
          rcases List.mem_cons.mp h2 with h | h
          · omega
          · have hlt : b < a + 2 := (List.sorted_cons.mp hs.2).1 _ h
            have hbn : b ≠ a + 1 := fun hh =>
              hn (hh ▸ List.mem_cons_of_mem _ (List.mem_cons_self _ _))
            omega
        simp only [gapFill]
        rw [if_pos hb]
        exact Finset.mem_union_left _ (Finset.mem_singleton_self _)
    · have h2 : a + 2 ∈ rest := by
        rcases List.mem_cons.mp ha2 with h | h
        · exfalso
          have := hs.1 a ha'
          omega
        · exact h
      have hn' : a + 1 ∉ rest := fun hh => hn (List.mem_cons_of_mem _ hh)
      exact gapFill_subset_cons x rest (ih hs.2 ha' h2 hn')

/-- C5 (amended): after `close_small_gaps`, every pair of lines that were both
shown BEFORE gap closing and differ by exactly 2 with nothing shown between
them has the middle line filled in.  (As stated, the claim is false: the
blank-successor pass runs after the gap-filling pass and can create a fresh
one-line gap in the final show set, see the counterexample.) -/
theorem C5_pre_gap_filled (ctx : Ctx) (shw res : Finset ℤ) (a : ℤ)
    (h : close_small_gaps ctx shw = some res)
    (ha : a ∈ shw) (ha2 : a + 2 ∈ shw) (hn : a + 1 ∉ shw) : a + 1 ∈ res := by
  simp only [close_small_gaps] at h
  have hgap : a + 1 ∈ gapFill (sortedSet shw) :=
    gapFill_fills (sortedSet shw) (sortedSet_sorted_lt shw) a
      (mem_sortedSet.mpr ha) (mem_sortedSet.mpr ha2) (fun hh => hn (mem_sortedSet.mp hh))
  exact passB_mono ctx _ _ _ h (Finset.mem_union_right _ hgap)

/-- C5 counterexample: on the four-line file `["a", "", "", "b"]` with lines of
interest `{0, 3}`, `expand_context` produces the show set `{0, 1, 3}`: lines 1
and 3 are consecutive in sorted order and differ by exactly 2 (the blank line 1
was added by the second pass of `close_small_gaps` AFTER the one-line-gap pass,
creating a new one-line gap at line 2). -/
theorem C5_counterexample :
    add_context ctxB ⟨∅, {0, 3}⟩ = some ⟨{1, 3, 0}, {0, 3}⟩ ∧
    (1 : ℤ) ∈ ({1, 3, 0} : Finset ℤ) ∧ (3 : ℤ) ∈ ({1, 3, 0} : Finset ℤ) ∧
    (2 : ℤ) ∉ ({1, 3, 0} : Finset ℤ) :=
  ⟨by exact Eq.refl _, by decide, by decide, by decide⟩

theorem C5_witness :
    close_small_gaps ctxB {0, 2} = some {0, 2, 1} ∧
    (0 : ℤ) ∈ ({0, 2} : Finset ℤ) ∧ (0 : ℤ) + 2 ∈ ({0, 2} : Finset ℤ) ∧
    (0 : ℤ) + 1 ∉ ({0, 2} : Finset ℤ) ∧ (0 : ℤ) + 1 ∈ ({0, 2, 1} : Finset ℤ) :=
  ⟨by exact Eq.refl _, by decide, by decide, by decide,
   C5_pre_gap_filled ctxB {0, 2} {0, 2, 1} 0 (by exact Eq.refl _) (by decide) (by decide)
     (by decide)⟩

/-! ### Small-scope completeness (C4). -/

theorem childFold_elem (ctx : Ctx) :
    ∀ ls s d out, childFold ctx ls s d = some out → ∀ i ∈ ls,
      ∃ s1 d1 mid, add_child_context ctx i s1 d1 = some mid ∧ mid.1 ⊆ out.1 := by
  intro ls
  induction ls with
  | nil =>
    intro s d out _ i hi
    simp at hi
  | cons j rest ih =>
    intro s d out h i hi
    simp only [childFold] at h
    split at h
    · exact absurd h (by simp)
    · rename_i s2 d2 hmid
      rcases List.mem_cons.mp hi with rfl | hi'
      · exact ⟨s, d, (s2, d2), hmid, (childFold_mono ctx _ _ _ _ h).1⟩
      · exact ih _ _ _ h i hi'

theorem add_child_context_small (ctx : Ctx) (i : ℤ) (s d : Finset ℤ) (out : SD) (L : Nat)
    (h : add_child_context ctx i s d = some out)
    (hL : get_last_line_of_scope ctx.nodes i = some L) (hsize : (L : ℤ) - i < 5) :
    Finset.Icc i (L : ℤ) ⊆ out.1 := by
  simp only [add_child_context] at h
  split at h
  · exact absurd h (by simp)
  · rename_i hget
    rw [get_last_line_of_scope, hget] at hL
    exact absurd hL (by simp)
  · rename_i n ns hget
    split at h
    · exact absurd h (by simp)
    · rename_i L2 hL2
      rw [hL] at hL2
      cases hL2
      split at h
      · cases h
        exact Finset.subset_union_right
      · exact absurd hsize (by assumption)

/-- C4 (amended): if a line of interest `i` starts at least one construct and
the LARGEST construct starting there (the maximum `end_line` over
`NodesByLine[i]`, which is what `add_child_context` measures) ends fewer than
5 lines below `i`, then the whole range `[i, last]` is shown after
`expand_context()` with child context enabled.  (As stated for an arbitrary
construct starting at `i` the claim is false: a small construct sharing its
start line with a large one is not revealed, see the counterexample.) -/
theorem C4_small_scope_completeness (ctx : Ctx) (st st' : CtxState) (i : ℤ) (L : Nat)
    (h : add_context ctx st = some st') (hcc : ctx.cfg.child_context = true)
    (hi : i ∈ st.lines_of_interest)
    (hL : get_last_line_of_scope ctx.nodes i = some L)
    (hsize : (L : ℤ) - i < 5) :
    Finset.Icc i (L : ℤ) ⊆ st'.show_lines := by
  simp only [add_context] at h
  split at h
  · rename_i hloi
    rw [hloi] at hi
    simp at hi
  · rw [Option.bind_eq_some] at h
    obtain ⟨sd2, _, h⟩ := h
    rw [Option.bind_eq_some] at h
    obtain ⟨sd3, _, h⟩ := h
    rw [Option.bind_eq_some] at h
    obtain ⟨sd4, h4, h⟩ := h
    rw [Option.bind_eq_some] at h
    obtain ⟨s6, h6, h⟩ := h
    cases h
    rw [step_child, if_pos hcc] at h4
    obtain ⟨s1, d1, mid, hmid, hsub⟩ :=
      childFold_elem ctx _ _ _ _ h4 i (mem_sortedSet.mpr hi)
    have hIcc := add_child_context_small ctx i s1 d1 mid L hmid hL hsize
    exact ((hIcc.trans hsub).trans (step_margin_mono ctx sd4.1)).trans
      (close_small_gaps_mono ctx _ _ h6)

/-- C4 counterexample: on a 21-line file where line 0 starts both a construct
spanning lines 0-20 and a small construct spanning lines 0-2 (`end_line - i =
2 < 5`), expanding `{0}` with child context enabled shows only `{0, 1}`: line 2
of the small construct is NOT shown, because `add_child_context` measures the
largest construct (size 20) and takes the budgeted-headers path instead. -/
theorem C4_counterexample :
    add_context ctxD ⟨∅, {0}⟩ = some ⟨{0, 1}, {0}⟩ ∧
    ctxD.cfg.child_context = true ∧
    pyGet ctxD.nodes 0 = some [rootD, TSNode.mk 0 2 []] ∧
    ((TSNode.mk 0 2 []).endLine : ℤ) - (0 : ℤ) < 5 ∧
    (2 : ℤ) ∉ ({0, 1} : Finset ℤ) :=
  ⟨by exact Eq.refl _, by exact Eq.refl _, by exact Eq.refl _, by decide, by decide⟩

theorem C4_witness :
    add_context ctxBchild ⟨∅, {0, 3}⟩ = some ⟨{0, 1, 2, 3}, {0, 3}⟩ ∧
    ctxBchild.cfg.child_context = true ∧
    (0 : ℤ) ∈ ({0, 3} : Finset ℤ) ∧
    get_last_line_of_scope ctxBchild.nodes 0 = some 3 ∧
    ((3 : Nat) : ℤ) - (0 : ℤ) < 5 ∧
    Finset.Icc (0 : ℤ) ((3 : Nat) : ℤ) ⊆ ({0, 1, 2, 3} : Finset ℤ) :=
  ⟨by exact Eq.refl _, by exact Eq.refl _, by decide, by exact Eq.refl _, by decide,
   C4_small_scope_completeness ctxBchild ⟨∅, {0, 3}⟩ ⟨{0, 1, 2, 3}, {0, 3}⟩ 0 3
     (by exact Eq.refl _) (by exact Eq.refl _) (by decide) (by exact Eq.refl _) (by decide)⟩

/-! ### Parent-scope recursion into closing lines (C6). -/

theorem add_parent_scopes_done_mem (ctx : Ctx) :
    ∀ fuel (i : ℤ) (s d : Finset ℤ) (out : SD),
      add_parent_scopes ctx fuel i s d = some out → i ∈ out.2 := by
  intro fuel i s d out h
  cases fuel with
  | zero => exact absurd h (by simp [add_parent_scopes])
  | succ fuel =>
    simp only [add_parent_scopes] at h
    split at h
    · rename_i hmem
      cases h
      exact hmem
    · split at h
      · cases h
        exact Finset.mem_insert_self _ _
      · split at h
        · exact absurd h (by simp)
        · have hmono := (apcLoopF_mono ctx _ (add_parent_scopes_mono ctx fuel) _ _ _ _ h).2
          exact hmono (Finset.mem_insert_self _ _)

theorem apcLoopF_lastline_done (ctx : Ctx) (hll : ctx.cfg.last_line = true)
    (apcF : ℤ → Finset ℤ → Finset ℤ → Option SD)
    (hFdone : ∀ i s d out, apcF i s d = some out → i ∈ out.2)
    (hFmono : ∀ i s d out, apcF i s d = some out → s ⊆ out.1 ∧ d ⊆ out.2) :
    ∀ ls s d out, apcLoopF ctx apcF ls s d = some out →
      ∀ ln ∈ ls, ∃ ll, get_last_line_of_scope ctx.nodes (ln : ℤ) = some ll ∧
        (ll : ℤ) ∈ out.2 := by
  intro ls
  induction ls with
  | nil =>
    intro s d out _ ln hln
    simp at hln
  | cons ln0 rest ih =>
    intro s d out h ln hln
    simp only [apcLoopF] at h
    split at h
    · exact absurd h (by simp)
    · rename_i hd he hget
      split at h
      · split at h
        · exact absurd h (by simp)
        · rename_i ll hglls
          split at h
          · exact absurd h (by simp)
          · rename_i s2 d2 happly
            rcases List.mem_cons.mp hln with rfl | hln'
            · refine ⟨ll, hglls, ?_⟩
              have h1 : (ll : ℤ) ∈ d2 := hFdone _ _ _ _ happly
              exact (apcLoopF_mono ctx apcF hFmono rest s2 d2 out h).2 h1
            · exact ih _ _ _ h ln hln'
      · rename_i hfalse
        exact absurd hll hfalse

/-- C6 (amended): when (and only when) the `last_line` configuration flag is
enabled, `add_parent_scopes` on a not-yet-processed in-range line `i` recurses
into the closing line (max `end_line` over `NodesByLine[s]`) of every
scope-start `s` enclosing `i`, marking it processed.  (As stated the claim is
false: the recursion in `add_parent_scopes` is guarded by `self.last_line`, the
same flag that enables the bottom-line step — it does not happen regardless of
the flag, see the counterexample.) -/
theorem C6_closing_line_recursion (ctx : Ctx) (fuel : Nat) (i : ℤ) (s d : Finset ℤ)
    (out : SD) (sl : List Nat)
    (hll : ctx.cfg.last_line = true)
    (h : add_parent_scopes ctx (fuel + 1) i s d = some out)
    (hnd : i ∉ d) (hlt : ¬ ((ctx.scopes.length : ℤ) ≤ i))
    (hsl : pyGet ctx.scopes i = some sl) :
    ∀ ln ∈ sl, ∃ ll, get_last_line_of_scope ctx.nodes (ln : ℤ) = some ll ∧
      (ll : ℤ) ∈ out.2 := by
  simp only [add_parent_scopes] at h
  rw [if_neg hnd, if_neg hlt] at h
  split at h
  · rename_i hnone
    rw [hsl] at hnone
    exact absurd hnone (by simp)
  · rename_i sl2 hsl2
    rw [hsl] at hsl2
    cases hsl2
    exact apcLoopF_lastline_done ctx hll _ (add_parent_scopes_done_mem ctx fuel)
      (add_parent_scopes_mono ctx fuel) sl _ _ _ h

/-- C6 counterexample: interest line 5 sits in scope 2 (spanning 2-8), and the
closing line 8 of that scope also carries scope 6.  With `last_line := false`,
`add_parent_scopes(5)` never recurses into the closing line 8: the header line
6 is missing from the result and 8 is never marked processed.  With
`last_line := true` the recursion happens and line 6 is shown.  So the
recursion does NOT hold regardless of the `last_line` flag. -/
theorem C6_counterexample :
    add_context ctxEF ⟨∅, {5}⟩ = some ⟨{5, 0, 2, 1}, {5}⟩ ∧
    (6 : ℤ) ∉ ({5, 0, 2, 1} : Finset ℤ) ∧
    add_parent_scopes ctxEF 13 5 {5} ∅ = some ({5, 0, 2}, {5}) ∧
    (8 : ℤ) ∉ ({5} : Finset ℤ) ∧
    pyGet ctxEF.scopes 5 = some [0, 2] ∧
    get_last_line_of_scope ctxEF.nodes 2 = some 8 ∧
    pyGet ctxEF.scopes 8 = some [0, 2, 6] ∧
    ctxEF.cfg.last_line = false ∧
    add_context ctxET ⟨∅, {5}⟩ = some ⟨{9, 5, 0, 2, 6, 1}, {5}⟩ ∧
    (6 : ℤ) ∈ ({9, 5, 0, 2, 6, 1} : Finset ℤ) :=
  ⟨by exact Eq.refl _, by decide, by exact Eq.refl _, by decide, by exact Eq.refl _,
   by exact Eq.refl _, by exact Eq.refl _, by exact Eq.refl _, by exact Eq.refl _, by decide⟩

theorem C6_witness :
    ctxET.cfg.last_line = true ∧
    add_parent_scopes ctxET (12 + 1) 5 {5} ∅ = some ({5, 0, 2, 6}, {8, 9, 5}) ∧
    (5 : ℤ) ∉ (∅ : Finset ℤ) ∧
    ¬ ((ctxET.scopes.length : ℤ) ≤ 5) ∧
    pyGet ctxET.scopes 5 = some [0, 2] ∧
    (∀ ln ∈ ([0, 2] : List Nat), ∃ ll,
      get_last_line_of_scope ctxET.nodes (ln : ℤ) = some ll ∧
      (ll : ℤ) ∈ (({5, 0, 2, 6}, {8, 9, 5}) : SD).2) :=
  ⟨by exact Eq.refl _, by exact Eq.refl _, by decide, by decide, by exact Eq.refl _,
   C6_closing_line_recursion ctxET 12 5 {5} ∅ ({5, 0, 2, 6}, {8, 9, 5}) [0, 2]
     (by exact Eq.refl _) (by exact Eq.refl _) (by decide) (by decide) (by exact Eq.refl _)⟩

/-! ### Rendering and out-of-range show lines (C10). -/

theorem formatLoop_congr (ctx : Ctx) (st1 st2 : CtxState)
    (hloi : st1.lines_of_interest = st2.lines_of_interest) :
    ∀ l out dots,
      (∀ p ∈ l, (((p : Nat × String).1 : ℤ) ∈ st1.show_lines ↔
        ((p : Nat × String).1 : ℤ) ∈ st2.show_lines)) →
      formatLoop ctx st1 l out dots = formatLoop ctx st2 l out dots := by
  intro l
  induction l with
  | nil => intro out dots _; rfl
  | cons p rest ih =>
    intro out dots hmem
    obtain ⟨i, line⟩ := p
    have hi := hmem (i, line) (List.mem_cons_self _ _)
    have hrest := fun q hq => hmem q (List.mem_cons_of_mem _ hq)
    simp only [formatLoop]
    by_cases h1 : (i : ℤ) ∈ st1.show_lines
    · rw [if_pos h1, if_pos (hi.mp h1), hloi]
      exact ih _ _ hrest
    · rw [if_neg h1, if_neg (fun hh => h1 (hi.mpr hh))]
      cases dots
      · simp only [Bool.false_eq_true, if_false]
        exact ih _ _ hrest
      · simp only [if_true]
        exact ih _ _ hrest

/-- C10 (amended): the output of `format` (`render()`) is determined by the
members of the show set that lie in `[0, len(lines))` TOGETHER WITH whether the
show set is empty: two states agreeing on the in-range members, on emptiness
and on the lines of interest render identically; in particular out-of-range
members are never emitted and never cause an out-of-range access, since the
loop only ranges over the real source lines.  (Determination by the in-range
members alone, as claimed, is false: a show set whose members are all out of
range is non-empty, skips the early return and emits a dots placeholder, see
the counterexample.) -/
theorem C10_render_in_range (ctx : Ctx) (st1 st2 : CtxState)
    (hloi : st1.lines_of_interest = st2.lines_of_interest)
    (hfil : st1.show_lines.filter (fun i => 0 ≤ i ∧ i < (ctx.lines.length : ℤ)) =
            st2.show_lines.filter (fun i => 0 ≤ i ∧ i < (ctx.lines.length : ℤ)))
    (hempty : st1.show_lines = ∅ ↔ st2.show_lines = ∅) :
    format ctx st1 = format ctx st2 := by
  have hmem : ∀ i : ℤ, 0 ≤ i → i < (ctx.lines.length : ℤ) →
      ((i ∈ st1.show_lines) ↔ (i ∈ st2.show_lines)) := by
    intro i h0 h1
    constructor <;> intro hh
    · have h2 : i ∈ st1.show_lines.filter (fun j => 0 ≤ j ∧ j < (ctx.lines.length : ℤ)) :=
        Finset.mem_filter.mpr ⟨hh, h0, h1⟩
      rw [hfil] at h2
      exact (Finset.mem_filter.mp h2).1
    · have h2 : i ∈ st2.show_lines.filter (fun j => 0 ≤ j ∧ j < (ctx.lines.length : ℤ)) :=
        Finset.mem_filter.mpr ⟨hh, h0, h1⟩
      rw [← hfil] at h2
      exact (Finset.mem_filter.mp h2).1
  simp only [format]
  by_cases he : st1.show_lines = ∅
  · rw [if_pos he, if_pos (hempty.mp he)]
  · rw [if_neg he, if_neg (fun hh => he (hempty.mpr hh))]
    rcases Nat.eq_zero_or_pos ctx.lines.length with hz | hpos
    · rw [List.length_eq_zero.mp hz]
      rfl
    · have hdots : ((0 : ℤ) ∈ st1.show_lines) ↔ ((0 : ℤ) ∈ st2.show_lines) :=
        hmem 0 le_rfl (by exact_mod_cast hpos)
      have hd : (if (0 : ℤ) ∈ st1.show_lines then false else true) =
          (if (0 : ℤ) ∈ st2.show_lines then false else true) := by
        by_cases h0 : (0 : ℤ) ∈ st1.show_lines
        · rw [if_pos h0, if_pos (hdots.mp h0)]
        · rw [if_neg h0, if_neg (fun hh => h0 (hdots.mpr hh))]
      rw [hd]
      refine formatLoop_congr ctx st1 st2 hloi _ _ _ ?_
      intro p hp
      have hlt : p.1 < ctx.lines.length := by
        have h2 := List.mem_enum_iff_getElem?.mp hp
        have h3 := List.getElem?_eq_some.mp h2
        exact h3.1
      exact hmem (p.1 : ℤ) (by positivity) (by exact_mod_cast hlt)

/-- C10 counterexample: on a one-line file, the show sets `{1}` (only the
virtual trailing line, nothing in range) and `∅` have the same in-range
members, yet `format` renders `"⋮\n"` for the first (the non-empty set skips
the early return and the unshown real line 0 produces a placeholder) and `""`
for the second — so the output is not determined by the in-range members
alone. -/
theorem C10_counterexample :
    format ctxJ ⟨{1}, ∅⟩ = "⋮\n" ∧ format ctxJ ⟨∅, ∅⟩ = "" ∧
    ({1} : Finset ℤ).filter (fun i => 0 ≤ i ∧ i < (ctxJ.lines.length : ℤ)) =
      (∅ : Finset ℤ).filter (fun i => 0 ≤ i ∧ i < (ctxJ.lines.length : ℤ)) ∧
    ("⋮\n" : String) ≠ "" :=
  ⟨by exact Eq.refl _, by exact Eq.refl _, by decide, by decide⟩

theorem C10_witness :
    (⟨{0}, ∅⟩ : CtxState).lines_of_interest = (⟨{0, 5}, ∅⟩ : CtxState).lines_of_interest ∧
    ({0} : Finset ℤ).filter (fun i => 0 ≤ i ∧ i < (ctxJ.lines.length : ℤ)) =
      ({0, 5} : Finset ℤ).filter (fun i => 0 ≤ i ∧ i < (ctxJ.lines.length : ℤ)) ∧
    (({0} : Finset ℤ) = ∅ ↔ ({0, 5} : Finset ℤ) = ∅) ∧
    format ctxJ ⟨{0}, ∅⟩ = format ctxJ ⟨{0, 5}, ∅⟩ :=
  ⟨rfl, by decide, by decide,
   C10_render_in_range ctxJ ⟨{0}, ∅⟩ ⟨{0, 5}, ∅⟩ rfl (by decide) (by decide)⟩

/-! ### The indexer invariant (C9). -/

theorem TSNode.inductionOn {motive : TSNode → Prop}
    (h : ∀ s e cs, (∀ c ∈ cs, motive c) → motive (TSNode.mk s e cs)) :
    ∀ n, motive n := by
  suffices hgen : ∀ k n, sizeOf n ≤ k → motive n from fun n => hgen (sizeOf n) n le_rfl
  intro k
  induction k with
  | zero =>
    intro n hn
    match n with
    | .mk s e cs =>
      have h2 : sizeOf (TSNode.mk s e cs) = 1 + sizeOf s + sizeOf e + sizeOf cs :=
        TSNode.mk.sizeOf_spec s e cs
      omega
  | succ k ih =>
    intro n hn
    match n with
    | .mk s e cs =>
      refine h s e cs ?_
      intro c hc
      have h1 : sizeOf c < sizeOf cs := List.sizeOf_lt_of_mem hc
      have h2 : sizeOf (TSNode.mk s e cs) = 1 + sizeOf s + sizeOf e + sizeOf cs :=
        TSNode.mk.sizeOf_spec s e cs
      exact ih c (by omega)

theorem setAt_some {α : Type} {xs : List α} {i : Nat} {f : α → α} {xs' : List α}
    (h : setAt xs i f = some xs') :
    ∃ a, xs.get? i = some a ∧ xs' = xs.set i (f a) := by
  simp only [setAt] at h
  split at h
  · exact absurd h (by simp)
  · rename_i a ha
    cases h
    exact ⟨a, ha, rfl⟩

theorem setAt_length {α : Type} {xs : List α} {i : Nat} {f : α → α} {xs' : List α}
    (h : setAt xs i f = some xs') : xs'.length = xs.length := by
  obtain ⟨a, _, rfl⟩ := setAt_some h
  simp

theorem setAt_lt {α : Type} {xs : List α} {i : Nat} {f : α → α} {xs' : List α}
    (h : setAt xs i f = some xs') : i < xs.length := by
  obtain ⟨a, ha, _⟩ := setAt_some h
  exact (List.get?_eq_some.mp ha).1

theorem setAt_get?_ne {α : Type} {xs : List α} {i : Nat} {f : α → α} {xs' : List α}
    (h : setAt xs i f = some xs') (j : Nat) (hj : j ≠ i) : xs'.get? j = xs.get? j := by
  obtain ⟨a, _, rfl⟩ := setAt_some h
  exact List.get?_set_ne _ _ (Ne.symm hj)

theorem setAt_get?_eq {α : Type} {xs : List α} {i : Nat} {f : α → α} {xs' : List α} {a : α}
    (h : setAt xs i f = some xs') (ha : xs.get? i = some a) : xs'.get? i = some (f a) := by
  obtain ⟨b, hb, rfl⟩ := setAt_some h
  rw [ha] at hb
  cases hb
  exact List.get?_set_eq_of_lt _ (List.get?_eq_some.mp ha).1

theorem le_foldl_max (l : List TSNode) :
    ∀ a : Nat, a ≤ l.foldl (fun m x => max m x.endLine) a := by
  induction l with
  | nil => intro a; simp
  | cons c rest ih =>
    intro a
    simp only [List.foldl_cons]
    exact le_trans (Nat.le_max_left a c.endLine) (ih _)

theorem foldl_max_mono (l : List TSNode) :
    ∀ a b : Nat, a ≤ b →
      l.foldl (fun m x => max m x.endLine) a ≤ l.foldl (fun m x => max m x.endLine) b := by
  induction l with
  | nil => intro a b hab; simpa
  | cons c rest ih =>
    intro a b hab
    simp only [List.foldl_cons]
    exact ih _ _ (max_le_max hab le_rfl)

theorem maxEnd_append (l ext : List TSNode) : maxEnd l ≤ maxEnd (l ++ ext) := by
  simp only [maxEnd, List.foldl_append]
  exact le_foldl_max ext _

theorem maxEnd_mem_le (l : List TSNode) : ∀ x ∈ l, x.endLine ≤ maxEnd l := by
  induction l with
  | nil => simp
  | cons c rest ih =>
    intro x hx
    rcases List.mem_cons.mp hx with rfl | hx'
    · simp only [maxEnd, List.foldl_cons, Nat.zero_max]
      exact le_foldl_max rest _
    · have h1 := ih x hx'
      simp only [maxEnd, List.foldl_cons, Nat.zero_max]
      exact le_trans h1 (foldl_max_mono rest 0 c.endLine (Nat.zero_le _))

theorem maxEnd_lt_of_forall {num : Nat} (hnum : 0 < num) (l : List TSNode)
    (h : ∀ x ∈ l, x.endLine < num) : maxEnd l < num := by
  suffices hgen : ∀ a, a < num → l.foldl (fun m x => max m x.endLine) a < num by
    exact hgen 0 hnum
  induction l with
  | nil => intro a ha; simpa
  | cons c rest ih =>
    intro a ha
    simp only [List.foldl_cons]
    exact ih (fun x hx => h x (List.mem_cons_of_mem _ hx)) _
      (Nat.max_lt.mpr ⟨ha, h c (List.mem_cons_self _ _)⟩)

theorem glls_eq (nodesTbl : List (List TSNode)) (s : Nat) (nl : List TSNode)
    (hget : nodesTbl.get? s = some nl) (hne : nl ≠ []) :
    get_last_line_of_scope nodesTbl (s : ℤ) = some (maxEnd nl) := by
  have hpy : pyGet nodesTbl (s : ℤ) = some nl := by
    simp only [pyGet, if_pos (Int.ofNat_nonneg s), Int.toNat_ofNat]
    exact hget
  cases nl with
  | nil => exact absurd rfl hne
  | cons n rest =>
    simp only [get_last_line_of_scope, hpy]
    congr 1
    simp [maxEnd, List.foldl_cons, Nat.zero_max]

theorem mem_addScopeAt {x s : Nat} {l : List Nat} : x ∈ addScopeAt l s ↔ x ∈ l ∨ x = s := by
  simp only [addScopeAt]
  split
  · rename_i hmem
    constructor
    · exact fun h => Or.inl h
    · rintro (h | rfl)
      · exact h
      · exact hmem
  · simp [List.mem_append]

theorem scopesLoop_length {s : Nat} :
    ∀ ls (scopes scopes' : List (List Nat)), scopesLoop scopes s ls = some scopes' →
      scopes'.length = scopes.length := by
  intro ls
  induction ls with
  | nil =>
    intro scopes scopes' h
    cases h
    rfl
  | cons i rest ih =>
    intro scopes scopes' h
    simp only [scopesLoop] at h
    split at h
    · exact absurd h (by simp)
    · rename_i sc hsc
      rw [ih _ _ h, setAt_length hsc]

theorem scopesLoop_bound {s : Nat} :
    ∀ ls (scopes scopes' : List (List Nat)), scopesLoop scopes s ls = some scopes' →
      ∀ i ∈ ls, i < scopes.length := by
  intro ls
  induction ls with
  | nil =>
    intro scopes scopes' _ i hi
    simp at hi
  | cons i0 rest ih =>
    intro scopes scopes' h i hi
    simp only [scopesLoop] at h
    split at h
    · exact absurd h (by simp)
    · rename_i sc hsc
      rcases List.mem_cons.mp hi with rfl | hi'
      · exact setAt_lt hsc
      · have := ih _ _ h i hi'
        rwa [setAt_length hsc] at this

theorem scopesLoop_mem {s : Nat} :
    ∀ ls (scopes scopes' : List (List Nat)), scopesLoop scopes s ls = some scopes' →
      ∀ j sl', scopes'.get? j = some sl' → ∀ x ∈ sl',
        (∃ sl, scopes.get? j = some sl ∧ x ∈ sl) ∨ (x = s ∧ j ∈ ls) := by
  intro ls
  induction ls with
  | nil =>
    intro scopes scopes' h j sl' hj x hx
    cases h
    exact Or.inl ⟨sl', hj, hx⟩
  | cons i0 rest ih =>
    intro scopes scopes' h j sl' hj x hx
    simp only [scopesLoop] at h
    split at h
    · exact absurd h (by simp)
    · rename_i sc hsc
      rcases ih _ _ h j sl' hj x hx with ⟨sl2, hsl2, hx2⟩ | ⟨rfl, hjr⟩
      · by_cases hji : j = i0
        · subst hji
          obtain ⟨a, ha, rfl⟩ := setAt_some hsc
          rw [List.get?_set_eq_of_lt _ (List.get?_eq_some.mp ha).1] at hsl2
          cases hsl2
          rcases mem_addScopeAt.mp hx2 with hx3 | rfl
          · exact Or.inl ⟨a, ha, hx3⟩
          · exact Or.inr ⟨rfl, List.mem_cons_self _ _⟩
        · rw [setAt_get?_ne hsc j hji] at hsl2
          exact Or.inl ⟨sl2, hsl2, hx2⟩
      · exact Or.inr ⟨rfl, List.mem_cons_of_mem _ hjr⟩

theorem NodesExtend_refl (t : WalkTables) : NodesExtend t t :=
  fun _ nl h => ⟨[], by simpa using h⟩

theorem NodesExtend_trans {t1 t2 t3 : WalkTables}
    (h1 : NodesExtend t1 t2) (h2 : NodesExtend t2 t3) : NodesExtend t1 t3 := by
  intro j nl h
  obtain ⟨e1, he1⟩ := h1 j nl h
  obtain ⟨e2, he2⟩ := h2 j _ he1
  exact ⟨e1 ++ e2, by rw [← List.append_assoc]; exact he2⟩

theorem LenEq_trans {t1 t2 t3 : WalkTables} (h1 : LenEq t1 t2) (h2 : LenEq t2 t3) :
    LenEq t1 t3 :=
  ⟨h2.1.trans h1.1, h2.2.1.trans h1.2.1, h2.2.2.trans h1.2.2⟩

theorem walk_tree_step {t : WalkTables} {s e : Nat} {cs : List TSNode} {t' : WalkTables}
    (h : walk_tree t (.mk s e cs) = some t') :
    ∃ nodesT candsT scopesT,
      setAt t.nodes s (fun l => l ++ [TSNode.mk s e cs]) = some nodesT ∧
      (if ((e : ℤ) - (s : ℤ)) ≠ 0 then
          setAt t.headerCands s (fun l => l ++ [((e : ℤ) - (s : ℤ), s, e)])
        else some t.headerCands) = some candsT ∧
      scopesLoop t.scopes s (List.range' s (e + 1 - s)) = some scopesT ∧
      walkList ⟨scopesT, candsT, nodesT⟩ cs = some t' := by
  simp only [walk_tree] at h
  split at h
  · exact absurd h (by simp)
  · rename_i nodesT h1
    split at h
    · exact absurd h (by simp)
    · rename_i candsT h2
      split at h
      · exact absurd h (by simp)
      · rename_i scopesT h3
        exact ⟨nodesT, candsT, scopesT, h1, h2, h3, h⟩

theorem walkList_extend (cs : List TSNode)
    (hcs : ∀ c ∈ cs, ∀ t t', walk_tree t c = some t' → LenEq t t' ∧ NodesExtend t t') :
    ∀ t t', walkList t cs = some t' → LenEq t t' ∧ NodesExtend t t' := by
  induction cs with
  | nil =>
    intro t t' h
    cases h
    exact ⟨⟨rfl, rfl, rfl⟩, NodesExtend_refl t⟩
  | cons c rest ih =>
    intro t t' h
    simp only [walkList] at h
    split at h
    · exact absurd h (by simp)
    · rename_i t1 h1
      obtain ⟨hl1, he1⟩ := hcs c (List.mem_cons_self _ _) t t1 h1
      obtain ⟨hl2, he2⟩ := ih (fun c' hc' => hcs c' (List.mem_cons_of_mem _ hc')) t1 t' h
      exact ⟨LenEq_trans hl1 hl2, NodesExtend_trans he1 he2⟩

theorem walk_extend : ∀ n t t', walk_tree t n = some t' → LenEq t t' ∧ NodesExtend t t' := by
  intro n
  induction n using TSNode.inductionOn with
  | _ s e cs ihcs =>
    intro t t' hw
    obtain ⟨nodesT, candsT, scopesT, h1, h2, h3, h4⟩ := walk_tree_step hw
    have hmidlen : LenEq t ⟨scopesT, candsT, nodesT⟩ := by
      refine ⟨scopesLoop_length _ _ _ h3, ?_, setAt_length h1⟩
      split at h2
      · exact setAt_length h2
      · cases h2; rfl
    have hmidext : NodesExtend t ⟨scopesT, candsT, nodesT⟩ := by
      intro j nl hj
      by_cases hjs : j = s
      · refine ⟨[TSNode.mk s e cs], ?_⟩
        rw [hjs]
        have h5 : t.nodes.get? s = some nl := hjs ▸ hj
        have h6 := setAt_get?_eq h1 h5
        exact h6
      · exact ⟨[], by rw [List.append_nil, setAt_get?_ne h1 j hjs]; exact hj⟩
    obtain ⟨hl2, he2⟩ := walkList_extend cs ihcs _ _ h4
    exact ⟨LenEq_trans hmidlen hl2, NodesExtend_trans hmidext he2⟩

theorem walkList_inv (num : Nat) (cs : List TSNode)
    (hcs : ∀ c ∈ cs, ∀ t t', walk_tree t c = some t' → WalkInv num t → WalkInv num t') :
    ∀ t t', walkList t cs = some t' → WalkInv num t → WalkInv num t' := by
  induction cs with
  | nil =>
    intro t t' h hinv
    cases h
    exact hinv
  | cons c rest ih =>
    intro t t' h hinv
    simp only [walkList] at h
    split at h
    · exact absurd h (by simp)
    · rename_i t1 h1
      exact ih (fun c' hc' => hcs c' (List.mem_cons_of_mem _ hc')) t1 t' h
        (hcs c (List.mem_cons_self _ _) t t1 h1 hinv)

theorem walk_inv (num : Nat) :
    ∀ n t t', walk_tree t n = some t' → WalkInv num t → WalkInv num t' := by
  intro n
  induction n using TSNode.inductionOn with
  | _ s e cs ihcs =>
    intro t t' hw hinv
    obtain ⟨nodesT, candsT, scopesT, h1, h2, h3, h4⟩ := walk_tree_step hw
    refine walkList_inv num cs ihcs _ _ h4 ?_
    have hnlen : nodesT.length = num := by rw [setAt_length h1, hinv.nodes_len]
    have hclen : candsT.length = num := by
      split at h2
      · rw [setAt_length h2, hinv.cands_len]
      · cases h2; exact hinv.cands_len
    have hslen : scopesT.length = num := by rw [scopesLoop_length _ _ _ h3, hinv.scopes_len]
    refine ⟨hslen, hclen, hnlen, ?_⟩
    intro i sl hi x hx
    rcases scopesLoop_mem _ _ _ h3 i sl hi x hx with ⟨sl0, hsl0, hx0⟩ | ⟨hxeq, hir⟩
    · obtain ⟨hxi, nl, hnl, hne, hmax⟩ := hinv.containment i sl0 hsl0 x hx0
      refine ⟨hxi, ?_⟩
      by_cases hxs : x = s
      · refine ⟨nl ++ [TSNode.mk s e cs], ?_, by simp, ?_⟩
        · rw [hxs]
          have h5 : t.nodes.get? s = some nl := hxs ▸ hnl
          have h6 := setAt_get?_eq h1 h5
          exact h6
        · exact le_trans hmax (maxEnd_append _ _)
      · exact ⟨nl, by rw [setAt_get?_ne h1 x hxs]; exact hnl, hne, hmax⟩
    · have hrange := List.mem_range'_1.mp hir
      obtain ⟨a, ha, _⟩ := setAt_some h1
      rw [hxeq]
      have h6 := setAt_get?_eq h1 ha
      refine ⟨hrange.1, a ++ [TSNode.mk s e cs], h6, by simp, ?_⟩
      have hmem : TSNode.mk s e cs ∈ a ++ [TSNode.mk s e cs] := by simp
      have hend := maxEnd_mem_le _ _ hmem
      have hie : i ≤ e := by omega
      have hee : (TSNode.mk s e cs).endLine = e := rfl
      rw [hee] at hend
      omega

theorem walkList_bounded (num : Nat) (cs : List TSNode)
    (hcs : ∀ c ∈ cs, ∀ t t', walk_tree t c = some t' → t.scopes.length = num →
      t.nodes.length = num → c.wfB = true → NodesBounded num t → NodesBounded num t') :
    ∀ t t', walkList t cs = some t' → t.scopes.length = num → t.nodes.length = num →
      wfListB cs = true → NodesBounded num t → NodesBounded num t' := by
  induction cs with
  | nil =>
    intro t t' h _ _ _ hB
    cases h
    exact hB
  | cons c rest ih =>
    intro t t' h hsl hnl hwf hB
    simp only [wfListB, Bool.and_eq_true] at hwf
    simp only [walkList] at h
    split at h
    · exact absurd h (by simp)
    · rename_i t1 h1
      obtain ⟨hlen, _⟩ := walk_extend c t t1 h1
      exact ih (fun c' hc' => hcs c' (List.mem_cons_of_mem _ hc')) t1 t' h
        (hlen.1.trans hsl) (hlen.2.2.trans hnl) hwf.2
        (hcs c (List.mem_cons_self _ _) t t1 h1 hsl hnl hwf.1 hB)

theorem walk_bounded (num : Nat) :
    ∀ n t t', walk_tree t n = some t' → t.scopes.length = num → t.nodes.length = num →
      n.wfB = true → NodesBounded num t → NodesBounded num t' := by
  intro n
  induction n using TSNode.inductionOn with
  | _ s e cs ihcs =>
    intro t t' hw hsl hnl hwf hB
    simp only [TSNode.wfB, Bool.and_eq_true, decide_eq_true_eq] at hwf
    obtain ⟨nodesT, candsT, scopesT, h1, h2, h3, h4⟩ := walk_tree_step hw
    have hs_lt : s < num := by
      have := setAt_lt h1
      rwa [hnl] at this
    have he_lt : e < num := by
      have hbound := scopesLoop_bound _ _ _ h3 e
        (List.mem_range'_1.mpr ⟨hwf.1, by omega⟩)
      rwa [hsl] at hbound
    have hmid : NodesBounded num ⟨scopesT, candsT, nodesT⟩ := by
      intro nl hnl2 n2 hn2
      obtain ⟨a, ha, rfl⟩ := setAt_some h1
      rcases List.mem_or_eq_of_mem_set hnl2 with hnl' | rfl
      · exact hB nl hnl' n2 hn2
      · rcases List.mem_append.mp hn2 with hn' | hn'
        · exact hB a (List.get?_mem ha) n2 hn'
        · have : n2 = TSNode.mk s e cs := by simpa using hn'
          subst this
          exact ⟨hs_lt, he_lt⟩
    exact walkList_bounded num cs ihcs _ _ h4
      (by rw [scopesLoop_length _ _ _ h3]; exact hsl)
      (by rw [setAt_length h1]; exact hnl) hwf.2 hmid

theorem buildCtx_some {cfg : Config} {lines : List String} {root : TSNode} {ctx : Ctx}
    (h : buildCtx cfg lines root = some ctx) :
    ∃ t, walk_tree ⟨List.replicate (lines.length + 1) [],
        List.replicate (lines.length + 1) [], List.replicate (lines.length + 1) []⟩
        root = some t ∧
      ctx = ⟨cfg, lines, t.scopes,
        (t.headerCands.enum.map fun p => finalizeHeader cfg.header_max p.1 p.2),
        t.nodes, []⟩ := by
  simp only [buildCtx] at h
  split at h
  · exact absurd h (by simp)
  · rename_i t ht
    cases h
    exact ⟨t, ht, rfl⟩

theorem init_inv (num : Nat) :
    WalkInv num ⟨List.replicate num [], List.replicate num [], List.replicate num []⟩ := by
  refine ⟨by simp, by simp, by simp, ?_⟩
  intro i sl hi x hx
  rcases List.get?_eq_some.mp hi with ⟨hlt, hget⟩
  rw [List.get_replicate] at hget
  rw [← hget] at hx
  simp at hx

/-- C9: after construction, every scope-start `s` recorded for a line `i`
satisfies `s ≤ i`, and `i` is at most the maximal `end_line` over the nodes
recorded at `s` (the value of `get_last_line_of_scope(s)`). -/
theorem C9_scope_containment (cfg : Config) (lines : List String) (root : TSNode)
    (ctx : Ctx) (h : buildCtx cfg lines root = some ctx) :
    ∀ i sl, ctx.scopes.get? i = some sl → ∀ s ∈ sl,
      s ≤ i ∧ ∃ e, get_last_line_of_scope ctx.nodes (s : ℤ) = some e ∧ i ≤ e := by
  obtain ⟨t, ht, rfl⟩ := buildCtx_some h
  have hinv := walk_inv (lines.length + 1) root _ _ ht (init_inv _)
  intro i sl hi s hs
  obtain ⟨hsi, nl, hnl, hne, hmax⟩ := hinv.containment i sl hi s hs
  exact ⟨hsi, maxEnd nl, glls_eq _ _ _ hnl hne, hmax⟩

theorem C9_witness :
    buildCtx cfgB linesB rootB = some ctxB ∧
    ctxB.scopes.get? 3 = some [0] ∧
    (0 ≤ 3 ∧ ∃ e, get_last_line_of_scope ctxB.nodes ((0 : Nat) : ℤ) = some e ∧ 3 ≤ e) :=
  ⟨by exact Eq.refl _, by exact Eq.refl _,
   C9_scope_containment cfgB linesB rootB ctxB (by exact Eq.refl _) 3 [0]
     (by exact Eq.refl _) 0 (by decide)⟩

/-! ### Clipping of out-of-range line indices (C2). -/

theorem pyGet_nat {α : Type} (xs : List α) (j : Nat) : pyGet xs (j : ℤ) = xs.get? j := by
  simp only [pyGet, if_pos (Int.ofNat_nonneg j), Int.toNat_ofNat]

theorem pyGet_nonneg_some {α : Type} {xs : List α} {i : ℤ} (h0 : 0 ≤ i)
    (h1 : i < xs.length) : ∃ a, pyGet xs i = some a := by
  have hlt : i.toNat < xs.length := by omega
  rw [pyGet, if_pos h0, List.get?_eq_get hlt]
  exact ⟨_, rfl⟩

theorem pyGet_some_range {α : Type} {xs : List α} {i : ℤ}
    (hge : -(xs.length : ℤ) ≤ i) (hlt : i < xs.length) : ∃ a, pyGet xs i = some a := by
  by_cases h0 : 0 ≤ i
  · exact pyGet_nonneg_some h0 hlt
  · have hlt2 : ((xs.length : ℤ) + i).toNat < xs.length := by omega
    rw [pyGet, if_neg h0, if_pos hge, List.get?_eq_get hlt2]
    exact ⟨_, rfl⟩

theorem pyGet_some_get? {α : Type} {xs : List α} {i : ℤ} {a : α}
    (h : pyGet xs i = some a) : ∃ j : Nat, xs.get? j = some a := by
  simp only [pyGet] at h
  split at h
  · exact ⟨i.toNat, h⟩
  · split at h
    · exact ⟨((xs.length : ℤ) + i).toNat, h⟩
    · exact absurd h (by simp)

theorem mRem_le (ctx : Ctx) (d : Finset ℤ) : mRem ctx d ≤ ctx.scopes.length := by
  have h1 : mRem ctx d ≤ (Finset.Icc (0 : ℤ) ((ctx.scopes.length : ℤ) - 1)).card :=
    Finset.card_filter_le _ _
  rw [Int.card_Icc] at h1
  omega

theorem mRem_mono (ctx : Ctx) {d d' : Finset ℤ} (h : d ⊆ d') : mRem ctx d' ≤ mRem ctx d := by
  apply Finset.card_le_card
  intro x hx
  rw [Finset.mem_filter] at hx ⊢
  exact ⟨hx.1, fun hxd => hx.2 (h hxd)⟩

theorem mRem_insert_lt (ctx : Ctx) {d : Finset ℤ} {i : ℤ} (h0 : 0 ≤ i)
    (h1 : i < (ctx.scopes.length : ℤ)) (hni : i ∉ d) :
    mRem ctx (insert i d) < mRem ctx d := by
  have hIcc : i ∈ Finset.Icc (0 : ℤ) ((ctx.scopes.length : ℤ) - 1) :=
    Finset.mem_Icc.mpr ⟨h0, by omega⟩
  have hmem : i ∈ (Finset.Icc (0 : ℤ) ((ctx.scopes.length : ℤ) - 1)).filter
      (fun x => x ∉ d) := Finset.mem_filter.mpr ⟨hIcc, hni⟩
  have heq : (Finset.Icc (0 : ℤ) ((ctx.scopes.length : ℤ) - 1)).filter
        (fun x => x ∉ insert i d) =
      ((Finset.Icc (0 : ℤ) ((ctx.scopes.length : ℤ) - 1)).filter
        (fun x => x ∉ d)).erase i := by
    ext x
    simp only [Finset.mem_filter, Finset.mem_erase, Finset.mem_insert]
    constructor
    · rintro ⟨ha, hb⟩
      exact ⟨fun hxi => hb (Or.inl hxi), ha, fun hxd => hb (Or.inr hxd)⟩
    · rintro ⟨ha, hb, hc⟩
      exact ⟨hb, fun hor => hor.elim ha hc⟩
  unfold mRem
  rw [heq, Finset.card_erase_of_mem hmem]
  have hpos : 0 < ((Finset.Icc (0 : ℤ) ((ctx.scopes.length : ℤ) - 1)).filter
      (fun x => x ∉ d)).card := Finset.card_pos.mpr ⟨i, hmem⟩
  omega

theorem apc_fuel (ctx : Ctx) (hwf : TablesWF ctx) :
    ∀ fuel,
      (∀ (i : ℤ) (s d : Finset ℤ), -(ctx.scopes.length : ℤ) ≤ i →
        ((0 ≤ i ∧ i < (ctx.scopes.length : ℤ) ∧ mRem ctx d < fuel) ∨
          mRem ctx d + 1 < fuel) →
        (add_parent_scopes ctx fuel i s d).isSome) ∧
      (∀ (ls : List Nat) (s d : Finset ℤ),
        (∀ ln ∈ ls, ln < ctx.num_lines ∧ ∃ nl, ctx.nodes.get? ln = some nl ∧
          nl ≠ [] ∧ ∀ n ∈ nl, n.endLine < ctx.num_lines) →
        mRem ctx d < fuel →
        (apcLoopF ctx (add_parent_scopes ctx fuel) ls s d).isSome) := by
  intro fuel
  induction fuel with
  | zero =>
    constructor
    · intro i s d _ hcond
      rcases hcond with ⟨_, _, h⟩ | h <;> omega
    · intro ls s d _ h
      omega
  | succ fuel ih =>
    have hA : ∀ (i : ℤ) (s d : Finset ℤ), -(ctx.scopes.length : ℤ) ≤ i →
        ((0 ≤ i ∧ i < (ctx.scopes.length : ℤ) ∧ mRem ctx d < fuel + 1) ∨
          mRem ctx d + 1 < fuel + 1) →
        (add_parent_scopes ctx (fuel + 1) i s d).isSome := by
      intro i s d hge hcond
      simp only [add_parent_scopes]
      split
      · simp
      · rename_i hid
        split
        · simp
        · rename_i hLi
          push_neg at hLi
          obtain ⟨sl, hsl⟩ := pyGet_some_range hge hLi
          rw [hsl]
          have hok : ∀ ln ∈ sl, ln < ctx.num_lines ∧ ∃ nl, ctx.nodes.get? ln = some nl ∧
              nl ≠ [] ∧ ∀ n ∈ nl, n.endLine < ctx.num_lines := by
            obtain ⟨j, hj⟩ := pyGet_some_get? hsl
            intro ln hln
            exact hwf.scopes_ok j sl hj ln hln
          apply ih.2 sl s (insert i d) hok
          rcases hcond with ⟨hi0, _, hrem⟩ | hrem
          · have := mRem_insert_lt ctx hi0 hLi hid
            omega
          · have := mRem_mono ctx (Finset.subset_insert i d)
            omega
    refine ⟨hA, ?_⟩
    intro ls
    induction ls with
    | nil =>
      intro s d _ _
      simp [apcLoopF]
    | cons ln rest ihl =>
      intro s d hok hrem
      obtain ⟨hlt, nl, hnl, hne, hend⟩ := hok ln (List.mem_cons_self _ _)
      simp only [apcLoopF]
      split
      · rename_i hnone
        rw [pyGet_nat] at hnone
        have hhl : ln < ctx.header.length := by rw [hwf.header_len]; exact hlt
        rw [List.get?_eq_get hhl] at hnone
        exact absurd hnone (by simp)
      · rename_i hs he hsome
        split
        · split
          · rename_i hgnone
            rw [glls_eq ctx.nodes ln nl hnl hne] at hgnone
            exact absurd hgnone (by simp)
          · rename_i ll hgll
            have hll : ll = maxEnd nl := by
              rw [glls_eq ctx.nodes ln nl hnl hne] at hgll
              cases hgll
              rfl
            have hnum_pos : 0 < ctx.num_lines := Nat.succ_pos _
            have hmax_lt : maxEnd nl < ctx.num_lines :=
              maxEnd_lt_of_forall hnum_pos nl hend
            have happ := hA (ll : ℤ)
              (if 0 < hs ∨ ctx.cfg.show_top_of_file_parent_scope then
                s ∪ Finset.Ico (hs : ℤ) (he : ℤ) else s) d
              (by omega)
              (Or.inl ⟨by omega, by rw [hwf.scopes_len]; omega, hrem⟩)
            split
            · rename_i happnone
              rw [happnone] at happ
              simp at happ
            · rename_i s2 d2 happsome
              have hd2 := (add_parent_scopes_mono ctx _ _ _ _ _ happsome).2
              exact ihl s2 d2 (fun ln' h' => hok ln' (List.mem_cons_of_mem _ h'))
                (lt_of_le_of_lt (mRem_mono ctx hd2) hrem)
        · exact ihl _ d (fun ln' h' => hok ln' (List.mem_cons_of_mem _ h')) hrem

theorem step_last_isSome (ctx : Ctx) (hwf : TablesWF ctx) (s1 : Finset ℤ) :
    (step_last ctx s1).isSome := by
  unfold step_last
  split
  · apply (apc_fuel ctx hwf (FUEL ctx)).1
    · have h2 := hwf.scopes_len
      simp only [Ctx.num_lines] at h2 ⊢
      omega
    · right
      have h1 := mRem_le ctx ∅
      have h2 := hwf.scopes_len
      simp only [FUEL]
      omega
  · simp

theorem apcFold_isSome (ctx : Ctx) (hwf : TablesWF ctx) :
    ∀ (ls : List ℤ) (s d : Finset ℤ),
      (∀ i ∈ ls, 0 ≤ i ∧ i < (ctx.num_lines : ℤ)) → (apcFold ctx ls s d).isSome := by
  intro ls
  induction ls with
  | nil =>
    intro s d _
    simp [apcFold]
  | cons i rest ih =>
    intro s d hin
    obtain ⟨h0, h1⟩ := hin i (List.mem_cons_self _ _)
    simp only [apcFold]
    have happ := (apc_fuel ctx hwf (FUEL ctx)).1 i s d (by omega) (Or.inl ⟨h0, by
      rw [hwf.scopes_len]; exact h1, by
        have hm := mRem_le ctx d
        have hl := hwf.scopes_len
        simp only [FUEL]
        omega⟩)
    split
    · rename_i hnone
      rw [hnone] at happ
      simp at happ
    · exact ih _ _ (fun j hj => hin j (List.mem_cons_of_mem _ hj))

theorem childLoop_isSome (ctx : Ctx) (hwf : TablesWF ctx) :
    ∀ (cls : List TSNode) (currently : Nat) (mts : ℤ) (s d : Finset ℤ),
      (childLoop ctx currently mts cls s d).isSome := by
  intro cls
  induction cls with
  | nil =>
    intro currently mts s d
    simp [childLoop]
  | cons c rest ih =>
    intro currently mts s d
    simp only [childLoop]
    split
    · simp
    · have happ := (apc_fuel ctx hwf (FUEL ctx)).1 (c.startLine : ℤ) s d (by omega)
        (Or.inr (by
          have hm := mRem_le ctx d
          have hl := hwf.scopes_len
          simp only [FUEL]
          omega))
      split
      · rename_i hnone
        rw [hnone] at happ
        simp at happ
      · exact ih _ _ _ _

theorem add_child_context_isSome (ctx : Ctx) (hwf : TablesWF ctx) (i : ℤ)
    (h0 : 0 ≤ i) (h1 : i < (ctx.num_lines : ℤ)) (s d : Finset ℤ) :
    (add_child_context ctx i s d).isSome := by
  have hlen : i < (ctx.nodes.length : ℤ) := by rw [hwf.nodes_len]; exact h1
  obtain ⟨nl, hnl⟩ := pyGet_nonneg_some h0 hlen
  simp only [add_child_context]
  split
  · rename_i hnone
    rw [hnone] at hnl
    exact absurd hnl (by simp)
  · simp
  · rename_i n ns hget
    split
    · rename_i hgnone
      rw [get_last_line_of_scope, hget] at hgnone
      exact absurd hgnone (by simp)
    · rename_i ll hgll
      split
      · simp
      · exact childLoop_isSome ctx hwf _ _ _ _ _

theorem childFold_isSome (ctx : Ctx) (hwf : TablesWF ctx) :
    ∀ (ls : List ℤ) (s d : Finset ℤ),
      (∀ i ∈ ls, 0 ≤ i ∧ i < (ctx.num_lines : ℤ)) → (childFold ctx ls s d).isSome := by
  intro ls
  induction ls with
  | nil =>
    intro s d _
    simp [childFold]
  | cons i rest ih =>
    intro s d hin
    obtain ⟨h0, h1⟩ := hin i (List.mem_cons_self _ _)
    simp only [childFold]
    have happ := add_child_context_isSome ctx hwf i h0 h1 s d
    split
    · rename_i hnone
      rw [hnone] at happ
      simp at happ
    · exact ih _ _ (fun j hj => hin j (List.mem_cons_of_mem _ hj))

theorem passB_isSome (ctx : Ctx) : ∀ l closed, (passB ctx l closed).isSome := by
  intro l
  induction l with
  | nil =>
    intro closed
    simp [passB]
  | cons p rest ih =>
    intro closed
    obtain ⟨i, line⟩ := p
    simp only [passB]
    split
    · split
      · rename_i hcond
        have hlt : (i : ℤ) + 1 < ctx.lines.length := by
          obtain ⟨_, h2⟩ := hcond
          simp only [Ctx.num_lines] at h2
          push_cast at h2
          omega
        obtain ⟨nxt, hnxt⟩ := pyGet_nonneg_some (by omega) hlt
        split
        · rename_i hnone
          rw [hnone] at hnxt
          exact absurd hnxt (by simp)
        · exact ih _
      · exact ih _
    · exact ih _

theorem close_small_gaps_isSome (ctx : Ctx) (shw : Finset ℤ) :
    (close_small_gaps ctx shw).isSome :=
  passB_isSome ctx _ _

theorem buildCtx_tablesWF {cfg : Config} {lines : List String} {root : TSNode} {ctx : Ctx}
    (hb : buildCtx cfg lines root = some ctx) (hwf : root.wfB = true) : TablesWF ctx := by
  obtain ⟨t, ht, rfl⟩ := buildCtx_some hb
  have hinv := walk_inv (lines.length + 1) root _ _ ht (init_inv _)
  have hbdd := walk_bounded (lines.length + 1) root _ _ ht (by simp) (by simp) hwf
    (by
      intro nl hnl n hn
      rw [List.eq_of_mem_replicate hnl] at hn
      simp at hn)
  refine ⟨hinv.scopes_len, ?_, hinv.nodes_len, ?_⟩
  · simp only [Ctx.num_lines]
    rw [List.length_map, List.enum_length]
    exact hinv.cands_len
  · intro i sl hi s hs
    obtain ⟨hsi, nl, hnl, hne, _⟩ := hinv.containment i sl hi s hs
    have hilt : i < lines.length + 1 := by
      have := (List.get?_eq_some.mp hi).1
      rwa [hinv.scopes_len] at this
    refine ⟨lt_of_le_of_lt hsi hilt, nl, hnl, hne, ?_⟩
    intro n hn
    exact (hbdd nl (List.get?_mem hnl) n hn).2

/-- C2 (amended): line indices inside `[0, num_lines)` supplied to
`add_lines_of_interest` never make `expand_context()` raise, and the indices
the expansion produces internally near file boundaries (padding past the last
line, the bottom line `num_lines - 2`, closing-line recursion) are clipped or
guarded.  (As stated the claim is false: an index at or beyond `num_lines`
raises `IndexError` inside `add_child_context`, which dereferences
`self.nodes[i]` without any range check — see the counterexample.) -/
theorem C2_in_range_interest_never_raises (cfg : Config) (lines : List String)
    (root : TSNode) (ctx : Ctx) (st : CtxState)
    (hb : buildCtx cfg lines root = some ctx) (hwf : root.wfB = true)
    (hloi : ∀ i ∈ st.lines_of_interest, 0 ≤ i ∧ i < (ctx.num_lines : ℤ)) :
    (add_context ctx st).isSome := by
  have htw := buildCtx_tablesWF hb hwf
  simp only [add_context]
  split
  · simp
  · have h2 := step_last_isSome ctx htw (step_pad ctx st.lines_of_interest)
    obtain ⟨sd2, hsd2⟩ := Option.isSome_iff_exists.mp h2
    rw [hsd2]
    simp only [Option.some_bind]
    have h3 : (step_parent ctx st.lines_of_interest sd2).isSome := by
      unfold step_parent
      split
      · exact apcFold_isSome ctx htw _ _ _ (fun i hi => hloi i (mem_sortedSet.mp hi))
      · simp
    obtain ⟨sd3, hsd3⟩ := Option.isSome_iff_exists.mp h3
    rw [hsd3]
    simp only [Option.some_bind]
    have h4 : (step_child ctx st.lines_of_interest sd3).isSome := by
      unfold step_child
      split
      · exact childFold_isSome ctx htw _ _ _ (fun i hi => hloi i (mem_sortedSet.mp hi))
      · simp
    obtain ⟨sd4, hsd4⟩ := Option.isSome_iff_exists.mp h4
    rw [hsd4]
    simp only [Option.some_bind]
    have h6 := close_small_gaps_isSome ctx (step_margin ctx sd4.1)
    obtain ⟨s6, hs6⟩ := Option.isSome_iff_exists.mp h6
    rw [hs6]
    simp

/-- C2 counterexample: passing the out-of-range line index 10 to
`add_lines_of_interest` on a two-line file (`num_lines = 3`) and then running
`expand_context()` with child context enabled raises (`self.nodes[10]` in
`add_child_context` is an `IndexError`, `none` in the model) instead of
clipping. -/
theorem C2_counterexample :
    buildCtx cfgC linesC rootC = some ctxC ∧
    rootC.wfB = true ∧
    add_context ctxC (add_lines_of_interest ⟨∅, ∅⟩ {10}) = none :=
  ⟨by exact Eq.refl _, by exact Eq.refl _, by exact Eq.refl _⟩

theorem C2_witness :
    buildCtx cfgB linesB rootB = some ctxB ∧
    rootB.wfB = true ∧
    (∀ i ∈ (({0, 3} : Finset ℤ)), 0 ≤ i ∧ i < (ctxB.num_lines : ℤ)) ∧
    (add_context ctxB ⟨∅, {0, 3}⟩).isSome :=
  ⟨by exact Eq.refl _, by exact Eq.refl _, by decide,
   C2_in_range_interest_never_raises cfgB linesB rootB ctxB ⟨∅, {0, 3}⟩
     (by exact Eq.refl _) (by exact Eq.refl _) (by decide)⟩

end GrepAst
